import Mathlib

/-!
# Verification of the clawbot security / executor layer

A shallow embedding, in Lean 4, of the pure logic of `src/security/acl.py`
and `src/executor/runner.py` of the clawbot repository, together with
theorems settling the frozen claims about those functions.

Python strings are modelled as Lean `String` / `List Char`; Python's
ASCII-whitespace handling (`str.strip`, `str.rstrip`, `str.splitlines`
restricted to `\n` line terminators, which is the only terminator that
survives the decoration-stripping step), `str.lower`, substring tests
(`in`), `os.path` lexical normalization (POSIX `normpath`/`abspath`) and
`fnmatch` matching (for patterns built from literal characters, `*` and
`?`, which covers every pattern in the repository configuration) are
reproduced definitionally below.  Effectful code (subprocess execution,
tmux control-plane calls, audit-file writes) is embedded by explicit
oracles for the external outcomes plus an event trace.
-/

namespace Clawbot

/-- Python `str.isspace` characters relevant here (ASCII whitespace); this is
the set stripped by `str.strip()` / `str.rstrip()` on ASCII text. -/
def pySpace (c : Char) : Bool :=
  c = ' ' ∨ c = '\t' ∨ c = '\n' ∨ c = '\r' ∨ c = '\x0b' ∨ c = '\x0c'

/-- Python `s.lstrip()` on a character list. -/
def lstripChars (l : List Char) : List Char := l.dropWhile pySpace

/-- Python `s.rstrip()` on a character list. -/
def rstripChars (l : List Char) : List Char := (l.reverse.dropWhile pySpace).reverse

/-- Python `s.strip()` on a character list. -/
def stripChars (l : List Char) : List Char := rstripChars (lstripChars l)

/-- Python `s.strip()`. -/
def pyStrip (s : String) : String := String.mk (stripChars s.data)

/-- Python `s.rstrip()`. -/
def pyRstrip (s : String) : String := String.mk (rstripChars s.data)

/-- Python `s.lower()` (ASCII case folding, as in all strings of this repo). -/
def pyLower (s : String) : String := String.mk (s.data.map Char.toLower)

/-- Contiguous-substring test on character lists (Python `sub in s`). -/
def listInfix (sub : List Char) : List Char → Bool
  | [] => sub.isEmpty
  | a :: as => sub.isPrefixOf (a :: as) || listInfix sub as

/-- Python `sub in s` substring test. -/
def pyIn (sub s : String) : Bool := listInfix sub.data s.data

/-- Python `a or b` on strings (first operand if non-empty). -/
def pyOr (a b : String) : String := if a = "" then b else a

/-- Python `s.startswith(pre)`. -/
def pyStartsWith (s pre : String) : Bool := pre.data.isPrefixOf s.data

/-- Python `s.endswith(suf)`. -/
def pyEndsWith (s suf : String) : Bool := suf.data.isSuffixOf s.data

/-- Python `s.split(sep)` on character lists for a one-character separator:
keeps every piece (`n` separators give `n+1` pieces). -/
def splitSep (sep : Char) : List Char → List (List Char)
  | [] => [[]]
  | c :: rest =>
    match splitSep sep rest with
    | [] => [[]]
    | piece :: pieces => if c = sep then [] :: piece :: pieces else (c :: piece) :: pieces

/-- Python `s.split(sep)` for a one-character separator. -/
def pySplit (sep : Char) (s : String) : List String := (splitSep sep s.data).map String.mk

/-- Python `sep.join(pieces)` on character lists for a one-character
separator. -/
def joinSep (sep : Char) : List (List Char) → List Char
  | [] => []
  | [x] => x
  | x :: y :: rest => x ++ sep :: joinSep sep (y :: rest)

/-- Python `sep.join(pieces)` for a one-character separator. -/
def pyJoin (sep : Char) (pieces : List String) : String :=
  String.mk (joinSep sep (pieces.map String.data))

/-! ## `os.path` lexical path handling (POSIX semantics)

`posixpath.normpath` and `posixpath.abspath`, translated from CPython's
`posixpath.py`.  `abspath` is purely lexical: it collapses `.` and `..`
segments without consulting the filesystem (no symlink resolution). -/

/-- The component-accumulation loop of `posixpath.normpath`. -/
def normpathComps (initialSlashes : Nat) (comps : List String) : List String :=
  comps.foldl
    (fun acc comp =>
      if comp = "" ∨ comp = "." then acc
      else if comp ≠ ".." ∨ (initialSlashes = 0 ∧ acc = []) ∨ acc.getLast? = some ".." then
        acc ++ [comp]
      else acc.dropLast)
    []

/-- `posixpath.normpath`, translated from CPython. -/
def normpath (path : String) : String :=
  if path = "" then "." else
  let initialSlashes : Nat :=
    if pyStartsWith path "/" then
      if pyStartsWith path "//" ∧ ¬ pyStartsWith path "///" then 2 else 1
    else 0
  let newComps := normpathComps initialSlashes (pySplit '/' path)
  let joined := String.mk (List.replicate initialSlashes '/') ++ pyJoin '/' newComps
  if joined = "" then "." else joined

/-- `posixpath.join cwd path` for the two-argument case used by `abspath`. -/
def pathJoin (a b : String) : String :=
  if pyStartsWith b "/" then b
  else if a = "" ∨ pyEndsWith a "/" then a ++ b
  else a ++ "/" ++ b

/-- `posixpath.abspath`, with the process working directory `cwd` passed
explicitly.  Purely lexical (does not follow symlinks). -/
def abspath (cwd path : String) : String :=
  if pyStartsWith path "/" then normpath path else normpath (pathJoin cwd path)

/-! ## `fnmatch` glob matching

`fnmatch.fnmatch` translates the pattern to a regex in which `*` becomes
`.*` (matching ANY characters, including `/`) and `?` becomes `.`, and
requires a full match.  On POSIX `normcase` is the identity.  The
repository's prohibited patterns contain only literal characters and `*`,
so character classes (`[...]`) are not modelled. -/

/-- `fnmatch.fnmatch` on patterns made of literals, `*` and `?`. -/
def globMatch : List Char → List Char → Bool
  | [], s => s.isEmpty
  | '*' :: ps, s => s.tails.any fun suf => globMatch ps suf
  | '?' :: ps, s =>
    match s with
    | [] => false
    | _ :: cs => globMatch ps cs
  | p :: ps, s =>
    match s with
    | [] => false
    | c :: cs => p = c && globMatch ps cs

/-! ## Configuration (`src/config/settings.py`) -/

/-- `Settings.BLOCKED_COMMANDS` raw value. -/
def BLOCKED_COMMANDS : String := "rm -rf,sudo,nc,ncat"

/-- `Settings.blocked_commands` computed property:
`[x.strip() for x in BLOCKED_COMMANDS.split(",") if x.strip()]`. -/
def blocked_commands : List String :=
  ((pySplit ',' BLOCKED_COMMANDS).map pyStrip).filter (fun x => x ≠ "")

/-- `Settings.PROHIBITED_PATHS` default value. -/
def PROHIBITED_PATHS : List String :=
  ["/System", "/Users/*/Library", "/private", "/etc"]

/-! ## The Policy Gatekeeper (`src/security/acl.py`) -/

/-- `is_command_allowed` from `src/security/acl.py`: iterates over the
configured blocked substrings and returns `False` as soon as one occurs
in `command.lower()`; otherwise `True`.  The blocklist is passed
explicitly (the source reads `settings.blocked_commands`). -/
def is_command_allowed (blockedCommands : List String) (command : String) : Bool :=
  !(blockedCommands.any fun blocked => pyIn blocked (pyLower command))

/-- `is_path_allowed` from `src/security/acl.py`.  The configuration
(`settings.SANDBOX_ENABLED`, `settings.WORKSPACE_DIR`,
`settings.PROHIBITED_PATHS`) and the working directory used by
`os.path.abspath` are passed explicitly. -/
def is_path_allowed (cwd : String) (sandboxEnabled : Bool) (workspaceDir : String)
    (prohibitedPaths : List String) (filePath : String) : Bool :=
  if !sandboxEnabled then true
  else
    let normalizedPath := abspath cwd filePath
    let workspace := abspath cwd workspaceDir
    if pyStartsWith normalizedPath workspace then true
    else if prohibitedPaths.any fun prohibited =>
        if pyIn "*" prohibited then globMatch prohibited.data normalizedPath.data
        else pyStartsWith normalizedPath prohibited then false
    else true

/-- Modelled from the spec: the canonical resolution described for
`pathAllowed` — "resolve `path` to an absolute, symlink-aware canonical
form", "collapsing `..` segments and following symlinks".  The missing
part is symlink resolution, which `src/security/acl.py` does not perform
(it uses the lexical `os.path.abspath`); the filesystem's symlink table is
modelled as a finite association list from absolute paths to absolute
targets, applied to each intermediate prefix while walking the path's
components left to right. -/
def specCanonicalize (links : List (String × String)) (cwd p : String) : String :=
  let start := if pyStartsWith p "/" then p else pathJoin cwd p
  let comps := pySplit '/' start
  let acc := comps.foldl
    (fun acc comp =>
      if comp = "" ∨ comp = "." then acc
      else if comp = ".." then
        pyJoin '/' ((pySplit '/' acc).dropLast)
      else
        let next := if acc = "" then "/" ++ comp else acc ++ "/" ++ comp
        match links.lookup next with
        | some target => target
        | none => next)
    ""
  if acc = "" then "/" else acc

/-! ## Audit logging (`src/security/acl.py`) -/

/-- One audit record, as serialized (minus the timestamp) to the daily
`audit_YYYYMMDD.jsonl` file by `log_command_execution`. -/
structure AuditRecord where
  user_id : Int
  command : String
  success : Bool
  result : String
deriving DecidableEq, Repr

/-- `log_command_execution` from `src/security/acl.py`.  The function body
builds the record and then performs `open(log_file, "a")` / `f.write`
with no surrounding `try`/`except`, so a failure of the underlying file
operation raises `OSError` to the caller.  The Boolean `openOk` is the
oracle for the outcome of that file operation; the propagated exception
is embedded as `Except.error`. -/
def log_command_execution (openOk : Bool) (user_id : Int) (command : String)
    (success : Bool) (result : String) : Except String AuditRecord :=
  if openOk then .ok ⟨user_id, command, success, result⟩
  else .error "OSError: audit log file cannot be opened"

/-! ## Line splitting (Python `str.splitlines` restricted to `\n`)

Captured TUI text reaching the extractor has passed the decoration
stripping of `_capture_tui_raw`, which removes every control character
except `\n` and `\t`, so `\n` is the only possible line terminator and
Python's `splitlines` coincides with splitting on `\n` (dropping a final
empty piece). -/

/-- Split on `'\n'`, keeping all pieces (`n` separators give `n+1` pieces). -/
def splitNL (l : List Char) : List (List Char) := splitSep '\n' l

/-- Python `s.splitlines()` for `\n`-terminated text. -/
def pySplitlinesL (l : List Char) : List (List Char) :=
  if l = [] then []
  else
    let p := splitNL l
    if p.getLast? = some [] then p.dropLast else p

/-- Python `"\n".join(pieces)`. -/
def joinNL (pieces : List (List Char)) : List Char := joinSep '\n' pieces

/-- `"\n".join` at the `String` level. -/
def strJoinNL (l : List String) : String := String.mk (joinNL (l.map String.data))

/-! ## The Output Extractor (`src/executor/runner.py`) -/

/-- The "assistant turn" marker glyphs of `_extract_tui_reply`:
`("⏺", "●")`. -/
def replyMarkers : List (List Char) := ["⏺".data, "●".data]

/-- The prompt/interrupt/divider markers of `_extract_tui_reply`:
`("❯", ">", "esc to interrupt", "✗", "✢", "─")`. -/
def dividerMarkers : List (List Char) :=
  ["❯".data, ">".data, "esc to interrupt".data, "✗".data, "✢".data, "─".data]

/-- Python `s.startswith(markers)` for the reply-marker tuple. -/
def isBlockOpenL (s : List Char) : Bool := replyMarkers.any fun m => m.isPrefixOf s

/-- Python `s.startswith(markers)` for the divider tuple. -/
def isDividerL (s : List Char) : Bool := dividerMarkers.any fun m => m.isPrefixOf s

/-- The line scan of `_extract_tui_reply` (runner.py lines 419-431):
arguments are the remaining lines, the open block `reply` (Python
`reply_lines`) and the last promoted block `latest` (Python
`latest_reply`); at end of input a still-open block is promoted. -/
def scanLines : List (List Char) → List (List Char) → List (List Char) → List (List Char)
  | [], reply, latest => if reply ≠ [] then reply else latest
  | ln :: rest, reply, latest =>
    let s := stripChars ln
    if isBlockOpenL s then scanLines rest [s] latest
    else if reply = [] then scanLines rest reply latest
    else if isDividerL s then scanLines rest [] reply
    else if s ≠ [] then scanLines rest (reply ++ [s]) latest
    else scanLines rest reply latest

/-- `[ln.rstrip() for ln in text.splitlines()]`. -/
def extractLinesL (t : List Char) : List (List Char) := (pySplitlinesL t).map rstripChars

/-- `_extract_tui_reply` on character lists:
`"\n".join(latest_reply).strip()` after the scan. -/
def extractReplyL (t : List Char) : List Char :=
  stripChars (joinNL (scanLines (extractLinesL t) [] []))

/-- `_extract_tui_reply` from `src/executor/runner.py`. -/
def _extract_tui_reply (text : String) : String := String.mk (extractReplyL text.data)

/-- The post-marker scan of `_extract_reply_after_prompt` (runner.py lines
447-455): same block detection as `scanLines`, but a divider `break`s out
of the loop returning the current block, and there is no end-of-input
promotion (the block is returned as-is). -/
def afterScanL : List (List Char) → List (List Char) → List (List Char)
  | [], reply => reply
  | ln :: rest, reply =>
    let s := stripChars ln
    if isBlockOpenL s then afterScanL rest [s]
    else if reply = [] then afterScanL rest reply
    else if isDividerL s then reply
    else if s ≠ [] then afterScanL rest (reply ++ [s])
    else afterScanL rest reply

/-- Index of the last element satisfying `p` (the Python
`for i, ln in enumerate(lines): if ...: last_idx = i` loop;
`none` plays the role of `last_idx == -1`). -/
def lastIdxWith (p : List Char → Bool) : List (List Char) → Option Nat
  | [] => none
  | x :: xs =>
    match lastIdxWith p xs with
    | some j => some (j + 1)
    | none => if p x then some 0 else none

/-- Python `sub in l` on character lists. -/
def containsL (sub l : List Char) : Bool := decide (sub <:+: l)

/-- `_extract_reply_after_prompt` on character lists: the needle is the
stripped command truncated to its trailing 32 characters; the scan runs
only on the lines strictly after the last line containing the needle. -/
def extractAfterL (t cmd : List Char) : List Char :=
  let lines := extractLinesL t
  let needle0 := stripChars cmd
  let needle := if needle0.length > 32 then needle0.drop (needle0.length - 32) else needle0
  match lastIdxWith (fun ln => needle ≠ [] && containsL needle ln) lines with
  | none => []
  | some i => stripChars (joinNL (afterScanL (lines.drop (i + 1)) []))

/-- `_extract_reply_after_prompt` from `src/executor/runner.py`. -/
def _extract_reply_after_prompt (text command : String) : String :=
  String.mk (extractAfterL text.data command.data)

/-- `_limit_tui_output` on character lists.  The caps are the
`settings.TUI_REPLY_MAX_LINES` / `settings.TUI_REPLY_MAX_CHARS` integers,
passed explicitly; Python's `l[-k:]` for `k > 0` is `drop (length - k)`. -/
def limitL (maxLines maxChars : Int) (t : List Char) : List Char :=
  let reply0 := extractReplyL t
  let reply1 :=
    if reply0 = [] then
      let lines := extractLinesL t
      let tail := if maxLines > 0 then lines.drop (lines.length - maxLines.toNat) else lines
      stripChars (joinNL tail)
    else reply0
  let reply2 :=
    if maxChars > 0 ∧ (reply1.length : Int) > maxChars then
      reply1.drop (reply1.length - maxChars.toNat)
    else reply1
  if stripChars reply2 = [] then "(no output)".data else stripChars reply2

/-- `_limit_tui_output` from `src/executor/runner.py`. -/
def _limit_tui_output (maxLines maxChars : Int) (text : String) : String :=
  String.mk (limitL maxLines maxChars text.data)

/-! ## Decoration stripping (`_capture_tui_raw`, runner.py lines 356-362)

```
output = re.sub(r"\x1b\[[0-9;?]*[A-Za-z]", "", output)
output = re.sub(r"\x1b\][^\x07]*\x07", "", output)
output = "".join(ch for ch in output if ch == "\n" or ch == "\t" or ch >= " ")
output = output.strip()
```
`re.sub` scans left to right and replaces non-overlapping matches;
both patterns are deterministic (the starred classes are disjoint from
the closing character), so substitution is a single left-to-right pass. -/

/-- The `[0-9;?]` character class. -/
def isCSIParam (c : Char) : Bool := c.isDigit || c = ';' || c = '?'

/-- `re.sub(r"\x1b\[[0-9;?]*[A-Za-z]", "", ·)`: at each `ESC [`, consume
the parameter characters; if an ASCII letter follows, the whole sequence
is a match and is dropped; otherwise no match starts here and the scan
moves one character forward. -/
def stripCSI : List Char → List Char
  | [] => []
  | c :: rest =>
    if c = '\x1b' then
      match rest with
      | '[' :: r2 =>
        match hd : r2.dropWhile isCSIParam with
        | d :: tail => if d.isAlpha then stripCSI tail else c :: stripCSI ('[' :: r2)
        | [] => c :: stripCSI ('[' :: r2)
      | b :: r2 => c :: stripCSI (b :: r2)
      | [] => [c]
    else c :: stripCSI rest
termination_by l => l.length
decreasing_by
  all_goals simp_wf
  all_goals try omega
  all_goals
    (have h := (List.dropWhile_sublist isCSIParam (l := r2)).length_le
     rw [hd] at h
     simp at h
     omega)

/-- `re.sub(r"\x1b\][^\x07]*\x07", "", ·)`: at each `ESC ]`, the match
extends to the first following BEL; with no BEL there is no match and
the scan moves one character forward. -/
def stripOSC : List Char → List Char
  | '\x1b' :: ']' :: r2 =>
    (match hd : r2.dropWhile (fun c => c ≠ '\x07') with
     | _ :: tail => stripOSC tail
     | [] => '\x1b' :: stripOSC (']' :: r2))
  | c :: rest => c :: stripOSC rest
  | [] => []
termination_by l => l.length
decreasing_by
  all_goals simp_wf
  all_goals try omega
  all_goals
    (have h := (List.dropWhile_sublist (fun c => c ≠ '\x07') (l := r2)).length_le
     rw [hd] at h
     simp at h
     omega)

/-- The printable-character filter (keeps `\n`, `\t` and `ch >= " "`). -/
def keepPrintable (l : List Char) : List Char :=
  l.filter fun ch => ch = '\n' || ch = '\t' || ' ' ≤ ch

/-- The decoration-stripping transformation of `_capture_tui_raw` on
character lists. -/
def stripDecorationL (l : List Char) : List Char :=
  stripChars (keepPrintable (stripOSC (stripCSI l)))

/-- The decoration-stripping transformation of `_capture_tui_raw`
(runner.py lines 356-362): CSI removal, then OSC removal, then the
printable filter, then `strip()`. -/
def stripDecoration (s : String) : String := String.mk (stripDecorationL s.data)

/-! ## The executor (`src/executor/runner.py`) -/

/-- A `{"success": ..., "message": ...}` result dictionary. -/
structure RunResult where
  success : Bool
  message : String
deriving DecidableEq, Repr

/-- Externally observable side effects of the executor: an audit-record
append (`log_command_execution` call), a one-shot subprocess invocation,
or a tmux control-plane call. -/
inductive Event where
  | audit (user_id : Int) (command : String) (success : Bool) (result : String)
  | subprocess (args : List String)
  | tmux (op : String)
deriving DecidableEq, Repr

/-- Oracle for the outcome of the `subprocess.run` call of `run_command`,
covering the `try`/`except` arms of the source. -/
inductive ExecOutcome where
  | completed (returncode : Int) (stdout stderr : String)
  | timeoutExpired
  | fileNotFound
  | otherError (msg : String)

/-- The CLI argument list built by `run_command`. -/
def cliArgs (claudePath : String) (useContinue : Bool) (sessionId : Option String)
    (command : String) : List String :=
  [claudePath] ++ (if useContinue then ["--continue"] else []) ++
    (match sessionId with
     | some sid => ["--session-id", sid]
     | none => []) ++ ["-p", command]

/-- `run_command` from `src/executor/runner.py` (the one-shot path),
returning its result dictionary together with the trace of audit /
subprocess events it performs.  The blocklist, CLI path and subprocess
outcome are explicit parameters. -/
def run_command (blocked : List String) (claudePath : String) (sessionId : Option String)
    (useContinue : Bool) (outcome : ExecOutcome) (user_id : Int) (command : String) :
    RunResult × List Event :=
  if is_command_allowed blocked command = false then
    (⟨false, "命令包含禁止关键词，请检查后重试"⟩,
     [.audit user_id command false "禁止的命令"])
  else
    let args := cliArgs claudePath useContinue sessionId command
    match outcome with
    | .completed rc stdout stderr =>
      let output_text := pyStrip (pyOr stdout (pyOr stderr ""))
      if rc = 0 then
        (⟨true, if output_text = "" then "命令已成功执行，但没有输出内容" else output_text⟩,
         [.subprocess args, .audit user_id command true output_text])
      else
        (⟨false, "执行失败: " ++ pyStrip stderr⟩,
         [.subprocess args, .audit user_id command false output_text])
    | .timeoutExpired =>
      (⟨false, "命令执行超时"⟩,
       [.subprocess args, .audit user_id command false "执行超时"])
    | .fileNotFound =>
      (⟨false, "Claude CLI 未找到，请确保已正确安装"⟩,
       [.subprocess args, .audit user_id command false "Claude CLI 未找到"])
    | .otherError msg =>
      (⟨false, "执行过程中发生错误: " ++ msg⟩,
       [.subprocess args, .audit user_id command false msg])

/-- The TUI-relevant configuration fields of `Settings`
(`src/config/settings.py`).  `TUI_WAIT_ATTEMPTS` is the declared
attempt-count setting (default `0`). -/
structure TuiSettings where
  TUI_WAIT_ATTEMPTS : Int
  TUI_REPLY_MAX_LINES : Int
  TUI_REPLY_MAX_CHARS : Int

/-- The reply extracted in one poll iteration of `run_tui_command`
(runner.py lines 500-503): `_extract_reply_after_prompt` on the capture's
message with the sent command as marker, falling back to
`_extract_tui_reply` when that is empty. -/
def pollReply (cap : Nat → RunResult) (command : String) (i : Nat) : String :=
  let r0 := _extract_reply_after_prompt (cap i).message command
  if r0 = "" then _extract_tui_reply (cap i).message else r0

/-- The early-exit condition of the poll loop at capture `i`: the capture
succeeded and its extracted reply is non-empty and differs from the
baseline reply. -/
def pollQualifies (cap : Nat → RunResult) (command before_reply : String) (i : Nat) : Prop :=
  (cap i).success = true ∧ pollReply cap command i ≠ "" ∧ pollReply cap command i ≠ before_reply

instance pollQualifiesDecidable (cap : Nat → RunResult) (command before_reply : String)
    (i : Nat) : Decidable (pollQualifies cap command before_reply i) :=
  inferInstanceAs (Decidable ((cap i).success = true ∧
    pollReply cap command i ≠ "" ∧ pollReply cap command i ≠ before_reply))

/-- One iteration step of the `for _ in range(6)` poll loop of
`run_tui_command` (runner.py lines 495-510): `fuel` counts the remaining
iterations, `i` the captures already performed, `out` the running
`output` variable.  Returns the final `output` and the total number of
captures performed.  The `time.sleep(settings.TUI_CAPTURE_DELAY)` has no
observable effect in the pure embedding. -/
def pollAttempt (cap : Nat → RunResult) (command before_reply : String) (s : TuiSettings) :
    Nat → Nat → Option RunResult → Option RunResult × Nat
  | 0, i, out => (out, i)
  | fuel + 1, i, out =>
    let current := cap i
    if current.success then
      let current_reply := pollReply cap command i
      if current_reply ≠ "" ∧ current_reply ≠ before_reply then
        (some ⟨true, _limit_tui_output s.TUI_REPLY_MAX_LINES s.TUI_REPLY_MAX_CHARS current_reply⟩,
         i + 1)
      else pollAttempt cap command before_reply s fuel (i + 1) (some current)
    else pollAttempt cap command before_reply s fuel (i + 1) (some current)

/-- The poll loop of `run_tui_command` (runner.py lines 495-516): the
iteration count is the hard-coded literal `6` of `for _ in range(6)`;
the settings contribute only the reply-size caps (via
`_limit_tui_output`).  After the loop, a `None` output is replaced by the
`(no output)` success. -/
def tuiPollLoop (s : TuiSettings) (cap : Nat → RunResult) (command before_reply : String) :
    RunResult × Nat :=
  match pollAttempt cap command before_reply s 6 0 none with
  | (some out, n) => (out, n)
  | (none, n) => (⟨true, "(no output)"⟩, n)

/-- Oracles for the external tmux interactions of `run_tui_command`:
the `_ensure_tui_session` outcome, the baseline `_capture_tui_raw`
result, the returncode/stderr of the final `send-keys Enter`, and the
poll captures. -/
structure TuiOracles where
  ensure : RunResult
  baseline : RunResult
  send_rc : Int
  send_stderr : String
  capture : Nat → RunResult

/-- `run_tui_command` from `src/executor/runner.py` (the interactive
path), returning its result dictionary and the trace of events. -/
def run_tui_command (blocked : List String) (s : TuiSettings) (o : TuiOracles)
    (user_id : Int) (command : String) : RunResult × List Event :=
  if is_command_allowed blocked command = false then
    (⟨false, "命令包含禁止关键词，请检查后重试"⟩,
     [.audit user_id ("tui:" ++ command) false "禁止的命令"])
  else if o.ensure.success = false then
    (o.ensure,
     [.tmux "ensure-session", .audit user_id ("tui:" ++ command) false o.ensure.message])
  else
    let before_reply := _extract_tui_reply o.baseline.message
    let sendEvents := [Event.tmux "ensure-session", Event.tmux "capture-pane",
      Event.tmux "send-keys cancel", Event.tmux "send-keys C-u",
      Event.tmux "send-keys literal", Event.tmux "send-keys Enter"]
    if o.send_rc ≠ 0 then
      let msg := pyOr (pyStrip o.send_stderr) "发送指令失败"
      (⟨false, msg⟩, sendEvents ++ [.audit user_id ("tui:" ++ command) false msg])
    else
      let out := tuiPollLoop s o.capture command before_reply
      (out.1,
       sendEvents ++ (List.range out.2).map (fun _ => Event.tmux "capture-pane") ++
         [.audit user_id ("tui:" ++ command) out.1.success out.1.message])

/-! ## Auxiliary notions for the extractor proofs -/

/-- A line that, inside an open reply block, is appended verbatim by the
scan of `_extract_tui_reply`: already stripped, non-empty, containing no
newline, and starting with neither a reply marker nor a divider marker. -/
def plainLine (x : List Char) : Prop :=
  stripChars x = x ∧ x ≠ [] ∧ '
' ∉ x ∧
    isBlockOpenL x = false ∧ isDividerL x = false

instance plainLineDecidable (x : List Char) : Decidable (plainLine x) :=
  inferInstanceAs (Decidable (_ ∧ _ ∧ _ ∧ _ ∧ _))

/-- A well-formed reply block as assembled by the scan: empty, or a
stripped newline-free marker-opening head followed by plain lines. -/
def wfBlock : List (List Char) → Prop
  | [] => True
  | h :: tl =>
    stripChars h = h ∧ '
' ∉ h ∧ isBlockOpenL h = true ∧ ∀ x ∈ tl, plainLine x

instance wfBlockDecidable : (B : List (List Char)) → Decidable (wfBlock B)
  | [] => isTrue trivial
  | _ :: _ => inferInstanceAs (Decidable (_ ∧ _ ∧ _ ∧ _))

/-- Drop leading empty pieces (the effect of `strip()` on the piece list
of a joined text, left side). -/
def dropLeadEmpty (L : List (List Char)) : List (List Char) :=
  L.dropWhile List.isEmpty

/-- Drop trailing empty pieces (the effect of `strip()` on the piece list
of a joined text, right side). -/
def dropTrailEmpty (L : List (List Char)) : List (List Char) :=
  (L.reverse.dropWhile List.isEmpty).reverse

/-- The piece list of `"\n".join(L).lstrip()`: leading empty pieces
vanish and the first surviving piece is left-stripped. -/
def lnormLines (L : List (List Char)) : List (List Char) :=
  match dropLeadEmpty L with
  | [] => []
  | h :: tl => lstripChars h :: tl

/-- The piece list of `"\n".join(L).strip()` for right-stripped pieces:
empty pieces vanish from both ends and the first surviving piece is
left-stripped. -/
def normLines (L : List (List Char)) : List (List Char) :=
  match dropTrailEmpty (dropLeadEmpty L) with
  | [] => []
  | h :: tl => stripChars h :: tl

/-! # Theorems -/

/-! ## Generic helper lemmas -/

/-- `listInfix` decides contiguous-substring containment. -/
theorem listInfix_iff (sub l : List Char) : listInfix sub l = true ↔ sub <:+: l := by
  induction l with
  | nil => simp [listInfix, List.isEmpty_iff, List.infix_nil]
  | cons a as ih =>
    simp [listInfix, List.infix_cons_iff, ih, List.isPrefixOf_iff_prefix]

/-- `dropWhile` is idempotent. -/
theorem dropWhile_idem (p : α → Bool) (l : List α) :
    (l.dropWhile p).dropWhile p = l.dropWhile p := by
  cases hd : l.dropWhile p with
  | nil => rfl
  | cons a as =>
    have h := List.head_dropWhile_not p l (by simp [hd])
    simp only [hd, List.head_cons] at h
    simp [List.dropWhile_cons, h]

/-- `dropWhile` yields a suffix. -/
theorem dropWhile_isSuffix (p : α → Bool) (l : List α) : l.dropWhile p <:+ l := by
  induction l with
  | nil => exact List.suffix_rfl
  | cons a as ih =>
    cases h : p a
    · rw [List.dropWhile_cons_of_neg (by simp [h])]
    · rw [List.dropWhile_cons_of_pos h]
      exact ih.trans (List.suffix_cons a as)

/-- `rstripChars` is idempotent. -/
theorem rstripChars_idem (l : List Char) : rstripChars (rstripChars l) = rstripChars l := by
  unfold rstripChars
  rw [List.reverse_reverse, dropWhile_idem]

/-- `rstripChars` keeps a prefix of its argument. -/
theorem rstripChars_isPre (l : List Char) : rstripChars l <+: l := by
  have hsuf := dropWhile_isSuffix pySpace l.reverse
  have h := List.reverse_prefix.mpr hsuf
  rwa [List.reverse_reverse] at h

/-- Characters of `rstripChars l` come from `l`. -/
theorem mem_rstripChars {c : Char} {l : List Char} (h : c ∈ rstripChars l) : c ∈ l :=
  (rstripChars_isPre l).subset h

/-- Characters of `lstripChars l` come from `l`. -/
theorem mem_lstripChars {c : Char} {l : List Char} (h : c ∈ lstripChars l) : c ∈ l :=
  (List.dropWhile_sublist pySpace).subset h

/-- Characters of `stripChars l` come from `l`. -/
theorem mem_stripChars {c : Char} {l : List Char} (h : c ∈ stripChars l) : c ∈ l :=
  mem_lstripChars (mem_rstripChars h)

/-- Left-stripping an already-stripped list does nothing. -/
theorem lstripChars_stripChars (l : List Char) :
    lstripChars (stripChars l) = stripChars l := by
  cases hd : stripChars l with
  | nil => rfl
  | cons a as =>
    have hpre : stripChars l <+: lstripChars l := rstripChars_isPre (lstripChars l)
    rw [hd] at hpre
    obtain ⟨t, ht⟩ := hpre
    have hdw : l.dropWhile pySpace = a :: (as ++ t) := by
      rw [show l.dropWhile pySpace = lstripChars l from rfl, ← ht]
      simp
    have ha := List.head_dropWhile_not pySpace l (by simp [hdw])
    simp only [hdw, List.head_cons] at ha
    simp [lstripChars, List.dropWhile_cons, ha]

/-- `stripChars` is idempotent. -/
theorem stripChars_idem (l : List Char) : stripChars (stripChars l) = stripChars l := by
  calc stripChars (stripChars l) = rstripChars (lstripChars (stripChars l)) := rfl
    _ = rstripChars (stripChars l) := by rw [lstripChars_stripChars]
    _ = rstripChars (rstripChars (lstripChars l)) := rfl
    _ = rstripChars (lstripChars l) := rstripChars_idem _
    _ = stripChars l := rfl

/-- `stripCSI` is the identity on escape-free text. -/
theorem stripCSI_id {l : List Char} (h : '\x1b' ∉ l) : stripCSI l = l := by
  induction l with
  | nil => rw [stripCSI.eq_def]
  | cons c rest ih =>
    have hc : ¬ c = '\x1b' := fun hc => h (hc ▸ List.mem_cons_self c rest)
    have hrest : '\x1b' ∉ rest := fun hr => h (List.mem_cons_of_mem c hr)
    rw [stripCSI.eq_def]
    dsimp only
    rw [if_neg hc, ih hrest]

/-- `stripOSC` is the identity on escape-free text. -/
theorem stripOSC_id {l : List Char} (h : '\x1b' ∉ l) : stripOSC l = l := by
  induction l with
  | nil => rw [stripOSC.eq_def]
  | cons c rest ih =>
    have hc : ¬ c = '\x1b' := fun hc => h (hc ▸ List.mem_cons_self c rest)
    have hrest : '\x1b' ∉ rest := fun hr => h (List.mem_cons_of_mem c hr)
    rw [stripOSC.eq_def]
    split
    · next x r2 heq =>
      cases heq
      exact absurd rfl hc
    · next x c2 rest2 hne heq =>
      injection heq with h1 h2
      rw [← h1, ← h2, ih hrest]
    · next x heq =>
      exact absurd heq (List.cons_ne_nil c rest)

/-- Characters surviving `keepPrintable` satisfy the printable test. -/
theorem keepPrintable_mem {c : Char} {l : List Char} (h : c ∈ keepPrintable l) :
    (c = '\n' || c = '\t' || ' ' ≤ c) = true :=
  (List.mem_filter.mp h).2

/-- The decoration-stripping pass is idempotent on character lists. -/
theorem stripDecorationL_idem (l : List Char) :
    stripDecorationL (stripDecorationL l) = stripDecorationL l := by
  have hmem : ∀ c ∈ stripDecorationL l, (c = '\n' || c = '\t' || ' ' ≤ c) = true := by
    intro c hc
    unfold stripDecorationL at hc
    exact keepPrintable_mem (mem_stripChars hc)
  have hesc : '\x1b' ∉ stripDecorationL l := by
    intro hc
    have h := hmem _ hc
    exact absurd h (by decide)
  conv_lhs => rw [stripDecorationL]
  rw [stripCSI_id hesc, stripOSC_id hesc]
  unfold keepPrintable
  rw [List.filter_eq_self.mpr hmem]
  exact stripChars_idem _

/-! ## C9: `stripDecoration` is idempotent -/

/-- C9: applying the decoration-stripping transformation (CSI removal,
OSC removal, printable filter, trim) twice gives the same result as
applying it once, for every input string. -/
theorem thm_C9 : ∀ x : String, stripDecoration (stripDecoration x) = stripDecoration x := by
  intro x
  show String.mk (stripDecorationL (stripDecorationL x.data)) = String.mk (stripDecorationL x.data)
  rw [stripDecorationL_idem]

/-! ## C3: `commandAllowed` is substring-based over the lower-cased command -/

/-- C3: `is_command_allowed` returns `false` precisely when the lower-cased
command contains one of the configured blocked substrings as a literal
substring, for every command and blocklist; with an empty blocklist every
command is allowed. -/
theorem thm_C3 :
    (∀ (bl : List String) (cmd : String),
        is_command_allowed bl cmd = false ↔ ∃ b ∈ bl, b.data <:+: (pyLower cmd).data) ∧
    (∀ cmd : String, is_command_allowed [] cmd = true) := by
  constructor
  · intro bl cmd
    simp [is_command_allowed, pyIn, List.any_eq_true, listInfix_iff]
  · intro cmd
    simp [is_command_allowed]

/-! ## C1: wildcard prohibited patterns use full-match `fnmatch` semantics -/

/-- C1 counterexample: with sandbox root `/work` and prohibited pattern
`/Users/*/Library`, the path `/Users/bob/Library/secrets.txt` is ALLOWED
(`fnmatch` requires the whole canonical path to match the pattern, and
the pattern ends at `Library`), contradicting the claimed denial. -/
theorem cex_C1 :
    is_path_allowed "/" true "/work" ["/Users/*/Library"]
      "/Users/bob/Library/secrets.txt" = true := by decide

/-- C1 amended: with sandbox root `/work` and a single wildcard prohibited
pattern `/Users/*/Library`, `is_path_allowed` denies exactly the paths
whose lexical absolute form is outside the `/work` string prefix and
fully matches the pattern under `fnmatch` semantics (where `*` matches
any characters, `/` included); in particular `/Users/bob/Library` is
denied while `/Users/bob/Library/secrets.txt` and `/work/report.txt` are
allowed. -/
theorem thm_C1 :
    (∀ p : String,
        is_path_allowed "/" true "/work" ["/Users/*/Library"] p = false ↔
          (pyStartsWith (abspath "/" p) "/work" = false ∧
           globMatch "/Users/*/Library".data (abspath "/" p).data = true)) ∧
    is_path_allowed "/" true "/work" ["/Users/*/Library"] "/Users/bob/Library" = false ∧
    is_path_allowed "/" true "/work" ["/Users/*/Library"] "/work/report.txt" = true := by
  refine ⟨?_, by decide, by decide⟩
  intro p
  show (if pyStartsWith (abspath "/" p) "/work" then true
        else if globMatch "/Users/*/Library".data (abspath "/" p).data || false then false
        else true) = false ↔ _
  cases h1 : pyStartsWith (abspath "/" p) "/work" <;>
    cases h2 : globMatch "/Users/*/Library".data (abspath "/" p).data <;>
      simp [h1, h2]

/-! ## C2: canonicalization is lexical, not symlink-aware -/

/-- C2 counterexample: with the symlink `/etc/w → /work`, the path
`/etc/w/f` canonically resolves (following the symlink) to `/work/f`,
inside the sandbox root `/work`; but `is_path_allowed` — which uses the
purely lexical `os.path.abspath` — denies it via the `/etc` prohibited
prefix. -/
theorem cex_C2 :
    specCanonicalize [("/etc/w", "/work")] "/" "/etc/w/f" = "/work/f" ∧
    pyStartsWith "/work/f" "/work" = true ∧
    is_path_allowed "/" true "/work" PROHIBITED_PATHS "/etc/w/f" = false := by
  refine ⟨by decide, by decide, by decide⟩

/-- C2 amended: `is_path_allowed` resolves its argument with the purely
lexical `os.path.abspath` (collapsing `.` and `..` segments, not
following symlinks): every path whose lexical absolute form starts with
the sandbox-root string is allowed, regardless of `..` spelling and of
the prohibited patterns. -/
theorem thm_C2 : ∀ (prohibited : List String) (p : String),
    pyStartsWith (abspath "/" p) "/work" = true →
    is_path_allowed "/" true "/work" prohibited p = true := by
  intro prohibited p h
  have hw : abspath "/" "/work" = "/work" := by decide
  unfold is_path_allowed
  simp [hw, h]

/-- C2 witness: `/work/x/../report.txt` normalizes into the root and is
allowed under the default prohibited patterns. -/
theorem wit_C2 :
    is_path_allowed "/" true "/work" PROHIBITED_PATHS "/work/x/../report.txt" = true :=
  thm_C2 PROHIBITED_PATHS "/work/x/../report.txt" (by decide)

/-! ## C7: the workspace check is a plain string-prefix test -/

/-- C7: with sandboxing enabled, any path whose `os.path.abspath` form
starts with the workspace directory as a plain character prefix is
allowed — there is no path-separator boundary check — so the sibling
directory `/home/u/ws-evil` of the root `/home/u/ws` is allowed for
every prohibited-pattern list. -/
theorem thm_C7 :
    (∀ (cwd workspaceDir : String) (prohibited : List String) (p : String),
        pyStartsWith (abspath cwd p) (abspath cwd workspaceDir) = true →
        is_path_allowed cwd true workspaceDir prohibited p = true) ∧
    (∀ prohibited : List String,
        is_path_allowed "/" true "/home/u/ws" prohibited "/home/u/ws-evil/f" = true) := by
  have key : ∀ (cwd ws : String) (proh : List String) (p : String),
      pyStartsWith (abspath cwd p) (abspath cwd ws) = true →
      is_path_allowed cwd true ws proh p = true := by
    intro cwd ws proh p h
    unfold is_path_allowed
    simp [h]
  exact ⟨key, fun proh => key "/" "/home/u/ws" proh "/home/u/ws-evil/f" (by decide)⟩

/-- C7 witness: the prefix test at a concrete sibling path. -/
theorem wit_C7 :
    is_path_allowed "/tmp" true "/home/u/ws" ["/etc"] "/home/u/ws-evil/f" = true :=
  thm_C7.1 "/tmp" "/home/u/ws" ["/etc"] "/home/u/ws-evil/f" (by decide)

/-! ## C5: the audit write propagates I/O failures -/

/-- C5 (code evaluated at the failing input): when the audit-log file
cannot be opened, `log_command_execution` — whose body has no
`try`/`except` — propagates the `OSError` to its caller for every
record, aborting the caller's operation. -/
theorem thm_C5 : ∀ (uid : Int) (cmd : String) (success : Bool) (result : String),
    log_command_execution false uid cmd success result =
      Except.error "OSError: audit log file cannot be opened" :=
  fun _ _ _ _ => rfl

/-! ## C4: a blocked command is rejected before any Driver/subprocess work -/

/-- C4: when `is_command_allowed` fails, both `run_command` and
`run_tui_command` return a failure result, the event trace contains
exactly one audit record (with `success = false`) and no subprocess or
tmux operation. -/
theorem thm_C4 : ∀ (blocked : List String) (claudePath : String) (sessionId : Option String)
    (useContinue : Bool) (outcome : ExecOutcome) (s : TuiSettings) (o : TuiOracles)
    (uid : Int) (cmd : String),
    is_command_allowed blocked cmd = false →
    run_command blocked claudePath sessionId useContinue outcome uid cmd =
      (⟨false, "命令包含禁止关键词，请检查后重试"⟩,
       [.audit uid cmd false "禁止的命令"]) ∧
    run_tui_command blocked s o uid cmd =
      (⟨false, "命令包含禁止关键词，请检查后重试"⟩,
       [.audit uid ("tui:" ++ cmd) false "禁止的命令"]) := by
  intro blocked claudePath sessionId useContinue outcome s o uid cmd h
  constructor
  · unfold run_command
    simp [h]
  · unfold run_tui_command
    simp [h]

/-- C4 witness: the default blocklist blocks `"please rm -rf /tmp"` and
both entry points reject it with a single failed audit record. -/
theorem wit_C4 :
    run_command blocked_commands "claude" none false (.completed 0 "" "") 1
      "please rm -rf /tmp" =
      (⟨false, "命令包含禁止关键词，请检查后重试"⟩,
       [.audit 1 "please rm -rf /tmp" false "禁止的命令"]) ∧
    run_tui_command blocked_commands ⟨0, 40, 4000⟩
      ⟨⟨true, ""⟩, ⟨true, ""⟩, 0, "", fun _ => ⟨true, ""⟩⟩ 1 "please rm -rf /tmp" =
      (⟨false, "命令包含禁止关键词，请检查后重试"⟩,
       [.audit 1 "tui:please rm -rf /tmp" false "禁止的命令"]) :=
  thm_C4 blocked_commands "claude" none false (.completed 0 "" "") ⟨0, 40, 4000⟩
    ⟨⟨true, ""⟩, ⟨true, ""⟩, 0, "", fun _ => ⟨true, ""⟩⟩ 1 "please rm -rf /tmp" (by decide)

/-! ## C6: the poll loop — hard-coded 6 attempts, early exit, last capture -/

/-- One unfolding step of the poll loop, phrased with `pollQualifies`. -/
theorem pollAttempt_succ (cap : Nat → RunResult) (cmd before : String) (s : TuiSettings)
    (fuel i : Nat) (out : Option RunResult) :
    pollAttempt cap cmd before s (fuel + 1) i out =
      if pollQualifies cap cmd before i then
        (some ⟨true, _limit_tui_output s.TUI_REPLY_MAX_LINES s.TUI_REPLY_MAX_CHARS
          (pollReply cap cmd i)⟩, i + 1)
      else pollAttempt cap cmd before s fuel (i + 1) (some (cap i)) := by
  by_cases hs : (cap i).success = true
  · by_cases hq : pollReply cap cmd i ≠ "" ∧ pollReply cap cmd i ≠ before
    · rw [if_pos ⟨hs, hq⟩]
      simp [pollAttempt, hs, hq]
    · rw [if_neg fun hcontra => hq ⟨hcontra.2.1, hcontra.2.2⟩]
      simp [pollAttempt, hs, hq]
  · rw [if_neg fun hcontra => hs hcontra.1]
    simp [pollAttempt, hs]

/-- If no capture in the window qualifies, the loop performs every
capture and ends holding the last one. -/
theorem pollAttempt_exhaust (cap : Nat → RunResult) (cmd before : String) (s : TuiSettings) :
    ∀ (fuel i : Nat) (out : Option RunResult),
    (∀ j, i ≤ j → j < i + (fuel + 1) → ¬ pollQualifies cap cmd before j) →
    pollAttempt cap cmd before s (fuel + 1) i out = (some (cap (i + fuel)), i + fuel + 1) := by
  intro fuel
  induction fuel with
  | zero =>
    intro i out h
    rw [pollAttempt_succ, if_neg (h i (Nat.le_refl i) (by omega))]
    simp [pollAttempt]
  | succ fuel ih =>
    intro i out h
    rw [pollAttempt_succ, if_neg (h i (Nat.le_refl i) (by omega))]
    have := ih (i + 1) (some (cap i)) (fun j h1 h2 => h j (by omega) (by omega))
    rw [this]
    have harith : i + 1 + fuel = i + (fuel + 1) := by omega
    rw [harith]

/-- The first qualifying capture stops the loop with the size-limited
extracted reply. -/
theorem pollAttempt_early (cap : Nat → RunResult) (cmd before : String) (s : TuiSettings) :
    ∀ (fuel i : Nat) (out : Option RunResult) (k : Nat),
    i ≤ k → k < i + fuel →
    pollQualifies cap cmd before k →
    (∀ j, i ≤ j → j < k → ¬ pollQualifies cap cmd before j) →
    pollAttempt cap cmd before s fuel i out =
      (some ⟨true, _limit_tui_output s.TUI_REPLY_MAX_LINES s.TUI_REPLY_MAX_CHARS
        (pollReply cap cmd k)⟩, k + 1) := by
  intro fuel
  induction fuel with
  | zero =>
    intro i out k h1 h2 _ _
    omega
  | succ fuel ih =>
    intro i out k h1 h2 hq hmin
    rcases Nat.eq_or_lt_of_le h1 with heq | hlt
    · subst heq
      rw [pollAttempt_succ, if_pos hq]
    · rw [pollAttempt_succ, if_neg (hmin i (Nat.le_refl i) hlt)]
      exact ih (i + 1) (some (cap i)) k hlt (by omega) hq
        fun j hj1 hj2 => hmin j (by omega) hj2

/-- The poll loop reads none of the settings except the two reply-size
caps: in particular `TUI_WAIT_ATTEMPTS` has no effect. -/
theorem pollAttempt_settings (cap : Nat → RunResult) (cmd before : String)
    (s s' : TuiSettings) (hml : s.TUI_REPLY_MAX_LINES = s'.TUI_REPLY_MAX_LINES)
    (hmc : s.TUI_REPLY_MAX_CHARS = s'.TUI_REPLY_MAX_CHARS) :
    ∀ (fuel i : Nat) (out : Option RunResult),
    pollAttempt cap cmd before s fuel i out = pollAttempt cap cmd before s' fuel i out := by
  intro fuel
  induction fuel with
  | zero => intro i out; rfl
  | succ fuel ih =>
    intro i out
    rw [pollAttempt_succ, pollAttempt_succ, hml, hmc, ih]

/-- C6 counterexample: the attempt count is NOT configurable.  With
`TUI_WAIT_ATTEMPTS` configured to `3` and captures that first qualify at
index 4 (the fifth capture), the loop still performs 5 captures — more
than the configured 3 — and succeeds with that fifth reply, because the
iteration count is the hard-coded `range(6)`. -/
theorem cex_C6 :
    tuiPollLoop ⟨3, 40, 4000⟩
      (fun i => if i < 4 then ⟨true, ""⟩ else ⟨true, "⏺ changed"⟩) "cmd" "" =
      (⟨true, "⏺ changed"⟩, 5) ∧
    (TuiSettings.mk 3 40 4000).TUI_WAIT_ATTEMPTS < 5 := by
  refine ⟨by decide, by decide⟩

/-- C6 amended: the poll loop runs a hard-coded 6 attempts (the
`TUI_WAIT_ATTEMPTS` setting is never consulted — the loop's behaviour is
independent of it); it exits early the first time the newly extracted
reply is non-empty and differs from the baseline reply, returning that
reply size-limited; and when all 6 attempts are exhausted without a
qualifying reply it returns the last capture obtained (a success
whenever that final capture succeeded) rather than an error. -/
theorem thm_C6 :
    (∀ (a a' ml mc : Int) (cap : Nat → RunResult) (cmd before : String),
        tuiPollLoop ⟨a, ml, mc⟩ cap cmd before = tuiPollLoop ⟨a', ml, mc⟩ cap cmd before) ∧
    (∀ (s : TuiSettings) (cap : Nat → RunResult) (cmd before : String),
        (∀ j, j < 6 → ¬ pollQualifies cap cmd before j) →
        tuiPollLoop s cap cmd before = (cap 5, 6)) ∧
    (∀ (s : TuiSettings) (cap : Nat → RunResult) (cmd before : String) (k : Nat),
        k < 6 → pollQualifies cap cmd before k →
        (∀ j, j < k → ¬ pollQualifies cap cmd before j) →
        tuiPollLoop s cap cmd before =
          (⟨true, _limit_tui_output s.TUI_REPLY_MAX_LINES s.TUI_REPLY_MAX_CHARS
            (pollReply cap cmd k)⟩, k + 1)) := by
  refine ⟨?_, ?_, ?_⟩
  · intro a a' ml mc cap cmd before
    unfold tuiPollLoop
    rw [pollAttempt_settings cap cmd before ⟨a, ml, mc⟩ ⟨a', ml, mc⟩ rfl rfl]
  · intro s cap cmd before h
    unfold tuiPollLoop
    rw [show (6 : Nat) = 5 + 1 from rfl,
      pollAttempt_exhaust cap cmd before s 5 0 none (fun j h1 h2 => h j (by omega))]
  · intro s cap cmd before k hk hq hmin
    unfold tuiPollLoop
    rw [pollAttempt_early cap cmd before s 6 0 none k (Nat.zero_le k) (by omega) hq
      (fun j h1 h2 => hmin j h2)]

/-- C6 witness: a concrete capture sequence qualifying first at the fifth
capture exits there with the limited reply. -/
theorem wit_C6 :
    tuiPollLoop ⟨0, 40, 4000⟩
      (fun i => if i < 4 then ⟨true, ""⟩ else ⟨true, "⏺ done"⟩) "cmd" "" =
      (⟨true, _limit_tui_output 40 4000
        (pollReply (fun i => if i < 4 then ⟨true, ""⟩ else ⟨true, "⏺ done"⟩) "cmd" 4)⟩, 5) :=
  thm_C6.2.2 ⟨0, 40, 4000⟩ (fun i => if i < 4 then ⟨true, ""⟩ else ⟨true, "⏺ done"⟩) "cmd" ""
    4 (by decide) (by decide) (by decide)

/-! ## Stripping: length bounds and end-character characterizations -/

/-- Left-stripping does not lengthen. -/
theorem lstripChars_length_le (l : List Char) : (lstripChars l).length ≤ l.length :=
  (List.dropWhile_sublist pySpace).length_le

/-- Right-stripping does not lengthen. -/
theorem rstripChars_length_le (l : List Char) : (rstripChars l).length ≤ l.length := by
  have h := (List.dropWhile_sublist pySpace (l := l.reverse)).length_le
  unfold rstripChars
  simpa using h

/-- Stripping does not lengthen. -/
theorem stripChars_length_le (l : List Char) : (stripChars l).length ≤ l.length :=
  le_trans (rstripChars_length_le _) (lstripChars_length_le _)

/-- A `dropWhile` fixed point starting with `a` has `p a = false`. -/
theorem dropWhile_eq_self_head {p : α → Bool} {a : α} {as : List α}
    (h : (a :: as).dropWhile p = a :: as) : p a = false := by
  cases hpa : p a
  · rfl
  · rw [List.dropWhile_cons_of_pos hpa] at h
    have hlen := congrArg List.length h
    have hle := (List.dropWhile_sublist p (l := as)).length_le
    simp at hlen
    omega

/-- A stripped list is a left-strip fixed point. -/
theorem stripped_lstrip {x : List Char} (h : stripChars x = x) : lstripChars x = x := by
  have h1 : (stripChars x).length = x.length := by rw [h]
  have h2 : (stripChars x).length ≤ (lstripChars x).length := rstripChars_length_le _
  have h3 : (lstripChars x).length ≤ x.length := lstripChars_length_le _
  have hsuf : lstripChars x <:+ x := dropWhile_isSuffix pySpace x
  exact hsuf.eq_of_length (by omega)

/-- A stripped list is a right-strip fixed point. -/
theorem stripped_rstrip {x : List Char} (h : stripChars x = x) : rstripChars x = x := by
  have hl := stripped_lstrip h
  unfold stripChars at h
  rwa [hl] at h

/-- A stripped non-empty list starts with a non-space character. -/
theorem stripped_head {x : List Char} {a : Char} {as : List Char}
    (h : stripChars x = x) (hx : x = a :: as) : pySpace a = false := by
  have hl := stripped_lstrip h
  rw [hx] at hl
  exact dropWhile_eq_self_head hl

/-- A right-strip fixed point ends with a non-space character. -/
theorem rstripped_last {x : List Char} {c : Char}
    (h : rstripChars x = x) (hc : x.getLast? = some c) : pySpace c = false := by
  have hrev : x.reverse.dropWhile pySpace = x.reverse := by
    have h2 := congrArg List.reverse h
    rwa [rstripChars, List.reverse_reverse] at h2
  have hh : x.reverse.head? = some c := by rw [List.head?_reverse, hc]
  cases hx : x.reverse with
  | nil => rw [hx] at hh; exact absurd hh (by simp)
  | cons b bs =>
    rw [hx] at hh hrev
    have hb : b = c := by simpa using hh
    have := dropWhile_eq_self_head hrev
    rwa [hb] at this

/-- Ending with a non-space character makes right-strip a no-op. -/
theorem rstrip_of_last {x : List Char} {c : Char} (hc : x.getLast? = some c)
    (hp : pySpace c = false) : rstripChars x = x := by
  have hh : x.reverse.head? = some c := by rw [List.head?_reverse, hc]
  cases hx : x.reverse with
  | nil => rw [hx] at hh; exact absurd hh (by simp)
  | cons b bs =>
    rw [hx] at hh
    have hb : b = c := by simpa using hh
    unfold rstripChars
    rw [hx, List.dropWhile_cons_of_neg (by rw [hb]; simp [hp]), ← hx, List.reverse_reverse]

/-- Non-space characters at both ends make strip a no-op. -/
theorem strip_eq_self (x : List Char) (hh : ∀ a, x.head? = some a → pySpace a = false)
    (hl : ∀ c, x.getLast? = some c → pySpace c = false) : stripChars x = x := by
  cases x with
  | nil => rfl
  | cons a as =>
    have ha := hh a rfl
    have hls : lstripChars (a :: as) = a :: as := by
      simp [lstripChars, List.dropWhile_cons, ha]
    unfold stripChars
    rw [hls]
    cases hgl : (a :: as).getLast? with
    | none => exact absurd hgl (by simp)
    | some c => exact rstrip_of_last hgl (hl c hgl)

/-- A non-empty right-strip fixed point does not left-strip to nothing. -/
theorem lstrip_ne_nil {x : List Char} (h : rstripChars x = x) (hx : x ≠ []) :
    lstripChars x ≠ [] := by
  intro hempty
  have hall : ∀ c ∈ x, pySpace c = true := List.dropWhile_eq_nil_iff.mp hempty
  have hr : rstripChars x = [] := by
    unfold rstripChars
    rw [List.dropWhile_eq_nil_iff.mpr fun c hc => hall c (List.mem_reverse.mp hc)]
    rfl
  rw [h] at hr
  exact hx hr

/-- For right-stripped input, strip coincides with left-strip. -/
theorem strip_of_rstripped {x : List Char} (h : rstripChars x = x) :
    stripChars x = lstripChars x := by
  unfold stripChars
  cases hx : lstripChars x with
  | nil => rfl
  | cons a as =>
    obtain ⟨t, ht⟩ := dropWhile_isSuffix pySpace x
    have hgl : x.getLast? = (lstripChars x).getLast? := by
      conv_lhs => rw [← ht]
      rw [List.getLast?_append_of_ne_nil t (by rw [show x.dropWhile pySpace = lstripChars x from rfl, hx]; simp)]
      rfl
    cases hc : (lstripChars x).getLast? with
    | none => rw [hx] at hc; exact absurd hc (by simp)
    | some c =>
      have hcx : x.getLast? = some c := by rw [hgl, hc]
      have hp := rstripped_last h hcx
      rw [hx] at hc
      exact rstrip_of_last hc hp

/-! ## Splitting and joining -/

/-- A split never returns an empty piece list. -/
theorem splitSep_ne_nil (sep : Char) (l : List Char) : splitSep sep l ≠ [] := by
  cases l with
  | nil => simp [splitSep]
  | cons c rest =>
    cases h : splitSep sep rest with
    | nil => simp [splitSep, h]
    | cons p ps =>
      by_cases hc : c = sep <;> simp [splitSep, h, hc]

/-- Splitting separator-free text gives one piece. -/
theorem splitSep_noSep {sep : Char} {x : List Char} (h : sep ∉ x) : splitSep sep x = [x] := by
  induction x with
  | nil => rfl
  | cons c rest ih =>
    have hc : ¬ c = sep := fun hc => h (hc ▸ List.mem_cons_self c rest)
    have hrest : sep ∉ rest := fun hr => h (List.mem_cons_of_mem c hr)
    simp [splitSep, ih hrest, hc]

/-- Splitting peels off a separator-free piece before a separator. -/
theorem splitSep_append {sep : Char} {x : List Char} (h : sep ∉ x) (rest : List Char) :
    splitSep sep (x ++ sep :: rest) = x :: splitSep sep rest := by
  induction x with
  | nil =>
    cases hsp : splitSep sep rest with
    | nil => exact absurd hsp (splitSep_ne_nil sep rest)
    | cons p ps => simp [splitSep, hsp]
  | cons c x' ih =>
    have hc : ¬ c = sep := fun hc => h (hc ▸ List.mem_cons_self c x')
    have hx' : sep ∉ x' := fun hr => h (List.mem_cons_of_mem c hr)
    have hstep : splitSep sep (c :: (x' ++ sep :: rest)) = (c :: x') :: splitSep sep rest := by
      rw [show splitSep sep (c :: (x' ++ sep :: rest)) =
          (match splitSep sep (x' ++ sep :: rest) with
           | [] => [[]]
           | piece :: pieces =>
             if c = sep then [] :: piece :: pieces else (c :: piece) :: pieces) from rfl,
        ih hx']
      simp [hc]
    rw [List.cons_append, hstep]

/-- Joining a split restores the original text. -/
theorem joinSep_splitSep (sep : Char) (t : List Char) :
    joinSep sep (splitSep sep t) = t := by
  induction t with
  | nil => rfl
  | cons c rest ih =>
    cases hsp : splitSep sep rest with
    | nil => exact absurd hsp (splitSep_ne_nil sep rest)
    | cons p ps =>
      rw [hsp] at ih
      by_cases hc : c = sep
      · have hstep : splitSep sep (c :: rest) = [] :: p :: ps := by
          simp [splitSep, hsp, hc]
        rw [hstep, show joinSep sep ([] :: p :: ps) = sep :: joinSep sep (p :: ps) from rfl,
          ih, hc]
      · have hstep : splitSep sep (c :: rest) = (c :: p) :: ps := by
          simp [splitSep, hsp, hc]
        rw [hstep]
        cases ps with
        | nil =>
          have hip : p = rest := ih
          rw [show joinSep sep [c :: p] = c :: p from rfl, hip]
        | cons q qs =>
          rw [show joinSep sep ((c :: p) :: q :: qs) =
              c :: joinSep sep (p :: q :: qs) from rfl, ih]

/-- Pieces of a split contain no separator. -/
theorem splitSep_pieces (sep : Char) (t : List Char) :
    ∀ x ∈ splitSep sep t, sep ∉ x := by
  induction t with
  | nil =>
    intro x hx
    simp [splitSep] at hx
    simp [hx]
  | cons c rest ih =>
    intro x hx
    cases hsp : splitSep sep rest with
    | nil => exact absurd hsp (splitSep_ne_nil sep rest)
    | cons p ps =>
      rw [hsp] at ih
      by_cases hc : c = sep
      · have hstep : splitSep sep (c :: rest) = [] :: p :: ps := by
          simp [splitSep, hsp, hc]
        rw [hstep] at hx
        rcases List.mem_cons.mp hx with h0 | h1
        · rw [h0]
          simp
        · exact ih x h1
      · have hstep : splitSep sep (c :: rest) = (c :: p) :: ps := by
          simp [splitSep, hsp, hc]
        rw [hstep] at hx
        rcases List.mem_cons.mp hx with h0 | h1
        · rw [h0]
          intro hmem
          rcases List.mem_cons.mp hmem with h2 | h3
          · exact hc h2.symm
          · exact ih p (List.mem_cons_self p ps) h3
        · exact ih x (List.mem_cons_of_mem p h1)

/-- Splitting a join of separator-free pieces restores the pieces. -/
theorem splitSep_joinSep {sep : Char} {L : List (List Char)}
    (hn : ∀ x ∈ L, sep ∉ x) (hL : L ≠ []) :
    splitSep sep (joinSep sep L) = L := by
  induction L with
  | nil => exact absurd rfl hL
  | cons x ys ih =>
    cases ys with
    | nil => exact splitSep_noSep (hn x (List.mem_cons_self x []))
    | cons y rest =>
      rw [show joinSep sep (x :: y :: rest) = x ++ sep :: joinSep sep (y :: rest) from rfl]
      rw [splitSep_append (hn x (List.mem_cons_self x (y :: rest)))]
      rw [ih (fun z hz => hn z (List.mem_cons_of_mem x hz)) (by simp)]

/-- `pySplitlinesL` inverts `joinNL` on newline-free pieces whose last
piece is non-empty. -/
theorem pySplitlines_joinNL {L : List (List Char)} (hn : ∀ x ∈ L, '\n' ∉ x)
    (hL : L.getLast? ≠ some []) : pySplitlinesL (joinNL L) = L := by
  cases L with
  | nil => rfl
  | cons x ys =>
    have hjoin : joinNL (x :: ys) ≠ [] := by
      cases ys with
      | nil =>
        have hx : x ≠ [] := by
          intro h0
          exact hL (by rw [h0]; rfl)
        simpa [joinNL, joinSep] using hx
      | cons y rest => simp [joinNL, joinSep]
    unfold pySplitlinesL
    rw [if_neg hjoin]
    rw [show splitNL (joinNL (x :: ys)) = x :: ys from splitSep_joinSep hn (by simp)]
    rw [if_neg hL]

/-- Join-length only shrinks along sublists of the piece list. -/
theorem joinNL_le_cons (a : List Char) (L : List (List Char)) :
    (joinNL L).length ≤ (joinNL (a :: L)).length := by
  cases L with
  | nil => simp [joinNL, joinSep]
  | cons y r =>
    simp only [joinNL, joinSep, List.length_append, List.length_cons]
    omega

/-- Join-length is monotone along sublists. -/
theorem joinNL_sublist_length {S L : List (List Char)} (h : S.Sublist L) :
    (joinNL S).length ≤ (joinNL L).length := by
  induction h with
  | slnil => exact Nat.le_refl _
  | cons a h ih => exact ih.trans (joinNL_le_cons a _)
  | cons₂ a h ih =>
    rename_i S' L'
    cases S' with
    | nil =>
      cases L' with
      | nil => exact Nat.le_refl _
      | cons y r => simp [joinNL, joinSep]
    | cons s ss =>
      cases L' with
      | nil => exact absurd (List.sublist_nil.mp h) (by simp)
      | cons y r =>
        have h1 : joinNL (a :: s :: ss) = a ++ '\n' :: joinNL (s :: ss) := rfl
        have h2 : joinNL (a :: y :: r) = a ++ '\n' :: joinNL (y :: r) := rfl
        rw [h1, h2]
        simp only [List.length_append, List.length_cons]
        omega

/-- Join-length only shrinks under a pointwise shrinking map. -/
theorem joinNL_map_length_le (f : List Char → List Char)
    (hf : ∀ x, (f x).length ≤ x.length) (L : List (List Char)) :
    (joinNL (L.map f)).length ≤ (joinNL L).length := by
  induction L with
  | nil => exact Nat.le_refl _
  | cons x ys ih =>
    cases ys with
    | nil => simpa [joinNL, joinSep] using hf x
    | cons y r =>
      have h1 : joinNL ((x :: y :: r).map f) = f x ++ '\n' :: joinNL ((y :: r).map f) := rfl
      have h2 : joinNL (x :: y :: r) = x ++ '\n' :: joinNL (y :: r) := rfl
      rw [h1, h2]
      simp only [List.length_append, List.length_cons]
      have := hf x
      omega

/-- The rstripped line list of a text joins back into something no longer
than the text. -/
theorem extractLines_join_le (t : List Char) :
    (joinNL (extractLinesL t)).length ≤ t.length := by
  unfold extractLinesL
  calc (joinNL ((pySplitlinesL t).map rstripChars)).length
      ≤ (joinNL (pySplitlinesL t)).length :=
        joinNL_map_length_le rstripChars rstripChars_length_le _
    _ ≤ (joinNL (splitNL t)).length := by
        unfold pySplitlinesL
        by_cases ht : t = []
        · rw [if_pos ht]
          exact Nat.zero_le _
        · rw [if_neg ht]
          dsimp only
          split
          · exact joinNL_sublist_length (List.dropLast_sublist _)
          · exact Nat.le_refl _
    _ = t.length := by rw [show joinNL (splitNL t) = t from joinSep_splitSep '\n' t]

/-- Lines produced by `pySplitlinesL` contain no newline. -/
theorem pySplitlines_noNL {t x : List Char} (h : x ∈ pySplitlinesL t) : '\n' ∉ x := by
  unfold pySplitlinesL at h
  by_cases ht : t = []
  · rw [if_pos ht] at h
    exact absurd h (List.not_mem_nil x)
  · rw [if_neg ht] at h
    have hx : x ∈ splitNL t := by
      revert h
      dsimp only
      split
      · intro h
        exact (List.dropLast_sublist _).subset h
      · intro h
        exact h
    exact splitSep_pieces '\n' t x hx

/-- Lines produced by `extractLinesL` contain no newline. -/
theorem extractLines_noNL {t x : List Char} (h : x ∈ extractLinesL t) : '\n' ∉ x := by
  unfold extractLinesL at h
  obtain ⟨y, hy, hxy⟩ := List.mem_map.mp h
  intro hmem
  exact pySplitlines_noNL hy (mem_rstripChars (hxy ▸ hmem))

/-- Lines produced by `extractLinesL` are right-stripped. -/
theorem extractLines_rstripped {t x : List Char} (h : x ∈ extractLinesL t) :
    rstripChars x = x := by
  unfold extractLinesL at h
  obtain ⟨y, _, hxy⟩ := List.mem_map.mp h
  rw [← hxy]
  unfold rstripChars
  rw [List.reverse_reverse, dropWhile_idem]

/-! ## The reply-block scan -/

/-- `scanLines` at the end of input. -/
theorem scan_nil (r l : List (List Char)) : scanLines [] r l = if r ≠ [] then r else l := rfl

/-- `scanLines` on one more line, with the branch structure exposed. -/
theorem scan_cons (ln : List Char) (rest r l : List (List Char)) :
    scanLines (ln :: rest) r l =
      if isBlockOpenL (stripChars ln) then scanLines rest [stripChars ln] l
      else if r = [] then scanLines rest r l
      else if isDividerL (stripChars ln) then scanLines rest [] r
      else if stripChars ln ≠ [] then scanLines rest (r ++ [stripChars ln]) l
      else scanLines rest r l := rfl

/-- Shape of a scan result: the initial `latest`, or the open block `r`
extended by stripped input lines, or a fresh block of stripped input
lines. -/
theorem scan_shape : ∀ (L r l : List (List Char)),
    scanLines L r l = l ∨
    (∃ S : List (List Char), S.Sublist L ∧ scanLines L r l = r ++ S.map stripChars) ∨
    (∃ S : List (List Char), S.Sublist L ∧ scanLines L r l = S.map stripChars) := by
  intro L
  induction L with
  | nil =>
    intro r l
    rw [scan_nil]
    by_cases hr : r = []
    · rw [if_neg (by simp [hr])]
      exact Or.inl rfl
    · rw [if_pos hr]
      exact Or.inr (Or.inl ⟨[], List.nil_sublist _, by simp⟩)
  | cons ln rest ih =>
    intro r l
    rw [scan_cons]
    by_cases h1 : isBlockOpenL (stripChars ln) = true
    · rw [if_pos h1]
      rcases ih [stripChars ln] l with h | ⟨S, hS, he⟩ | ⟨S, hS, he⟩
      · exact Or.inl h
      · exact Or.inr (Or.inr ⟨ln :: S, hS.cons₂ ln, by rw [he]; simp⟩)
      · exact Or.inr (Or.inr ⟨S, hS.cons ln, he⟩)
    · rw [if_neg h1]
      by_cases h2 : r = []
      · rw [if_pos h2]
        rcases ih r l with h | ⟨S, hS, he⟩ | ⟨S, hS, he⟩
        · exact Or.inl h
        · exact Or.inr (Or.inl ⟨S, hS.cons ln, he⟩)
        · exact Or.inr (Or.inr ⟨S, hS.cons ln, he⟩)
      · rw [if_neg h2]
        by_cases h3 : isDividerL (stripChars ln) = true
        · rw [if_pos h3]
          rcases ih [] r with h | ⟨S, hS, he⟩ | ⟨S, hS, he⟩
          · exact Or.inr (Or.inl ⟨[], List.nil_sublist _, by rw [h]; simp⟩)
          · exact Or.inr (Or.inr ⟨S, hS.cons ln, by rw [he]; simp⟩)
          · exact Or.inr (Or.inr ⟨S, hS.cons ln, he⟩)
        · rw [if_neg h3]
          by_cases h4 : stripChars ln ≠ []
          · rw [if_pos h4]
            rcases ih (r ++ [stripChars ln]) l with h | ⟨S, hS, he⟩ | ⟨S, hS, he⟩
            · exact Or.inl h
            · exact Or.inr (Or.inl ⟨ln :: S, hS.cons₂ ln, by rw [he]; simp⟩)
            · exact Or.inr (Or.inr ⟨S, hS.cons ln, he⟩)
          · rw [if_neg h4]
            rcases ih r l with h | ⟨S, hS, he⟩ | ⟨S, hS, he⟩
            · exact Or.inl h
            · exact Or.inr (Or.inl ⟨S, hS.cons ln, he⟩)
            · exact Or.inr (Or.inr ⟨S, hS.cons ln, he⟩)

/-- The scan preserves block well-formedness. -/
theorem scan_wf : ∀ (L r l : List (List Char)), (∀ x ∈ L, '\n' ∉ x) →
    wfBlock r → wfBlock l → wfBlock (scanLines L r l) := by
  intro L
  induction L with
  | nil =>
    intro r l _ hr hl
    rw [scan_nil]
    split
    · exact hr
    · exact hl
  | cons ln rest ih =>
    intro r l hnl hr hl
    have hln : '\n' ∉ ln := hnl ln (List.mem_cons_self ln rest)
    have hrest : ∀ x ∈ rest, '\n' ∉ x := fun x hx => hnl x (List.mem_cons_of_mem ln hx)
    have hsnl : '\x0a' ∉ stripChars ln := fun hm => hln (mem_stripChars hm)
    rw [scan_cons]
    by_cases h1 : isBlockOpenL (stripChars ln) = true
    · rw [if_pos h1]
      refine ih [stripChars ln] l hrest ?_ hl
      exact ⟨stripChars_idem ln, hsnl, h1, by simp⟩
    · rw [if_neg h1]
      by_cases h2 : r = []
      · rw [if_pos h2]
        exact ih r l hrest hr hl
      · rw [if_neg h2]
        by_cases h3 : isDividerL (stripChars ln) = true
        · rw [if_pos h3]
          exact ih [] r hrest trivial hr
        · rw [if_neg h3]
          by_cases h4 : stripChars ln ≠ []
          · rw [if_pos h4]
            refine ih (r ++ [stripChars ln]) l hrest ?_ hl
            cases r with
            | nil => exact absurd rfl h2
            | cons h0 tl =>
              obtain ⟨hsh, hhn, hho, htl⟩ := hr
              refine ⟨hsh, hhn, hho, ?_⟩
              intro x hx
              rcases List.mem_append.mp hx with hx1 | hx2
              · exact htl x hx1
              · rw [List.mem_singleton.mp hx2]
                exact ⟨stripChars_idem ln, h4, hsnl,
                  by simpa using h1, by simpa using h3⟩
          · rw [if_neg h4]
            exact ih r l hrest hr hl

/-- With no block-opening line and an empty open block, the scan returns
the current `latest`. -/
theorem scan_no_open : ∀ (L l : List (List Char)),
    (∀ ln ∈ L, isBlockOpenL (stripChars ln) = false) → scanLines L [] l = l := by
  intro L
  induction L with
  | nil => intro l _; rfl
  | cons ln rest ih =>
    intro l h
    rw [scan_cons, if_neg (by simp [h ln (List.mem_cons_self ln rest)]), if_pos rfl]
    exact ih l fun x hx => h x (List.mem_cons_of_mem ln hx)

/-- The scan result is non-empty as soon as a block is open, a latest
block exists, or some line opens a block. -/
theorem scan_ne_nil : ∀ (L r l : List (List Char)),
    (r ≠ [] ∨ l ≠ [] ∨ ∃ ln ∈ L, isBlockOpenL (stripChars ln) = true) →
    scanLines L r l ≠ [] := by
  intro L
  induction L with
  | nil =>
    intro r l h
    rw [scan_nil]
    by_cases hr : r = []
    · rw [if_neg (by simp [hr])]
      rcases h with h | h | ⟨ln, hln, _⟩
      · exact absurd hr h
      · exact h
      · exact absurd hln (List.not_mem_nil ln)
    · rw [if_pos hr]
      exact hr
  | cons ln rest ih =>
    intro r l h
    rw [scan_cons]
    by_cases h1 : isBlockOpenL (stripChars ln) = true
    · rw [if_pos h1]
      exact ih [stripChars ln] l (Or.inl (by simp))
    · rw [if_neg h1]
      by_cases h2 : r = []
      · rw [if_pos h2]
        refine ih r l ?_
        rcases h with h | h | ⟨ln', hln', hop⟩
        · exact Or.inl h
        · exact Or.inr (Or.inl h)
        · rcases List.mem_cons.mp hln' with he | hm
          · exact absurd (he ▸ hop) (by simp [h1])
          · exact Or.inr (Or.inr ⟨ln', hm, hop⟩)
      · rw [if_neg h2]
        by_cases h3 : isDividerL (stripChars ln) = true
        · rw [if_pos h3]
          exact ih [] r (Or.inr (Or.inl h2))
        · rw [if_neg h3]
          by_cases h4 : stripChars ln ≠ []
          · rw [if_pos h4]
            exact ih (r ++ [stripChars ln]) l (Or.inl (by simp [h2]))
          · rw [if_neg h4]
            exact ih r l (Or.inl h2)

/-- Plain lines inside an open block are appended one for one; the scan
then continues on the remaining lines. -/
theorem scan_chain_mid : ∀ (tl rest r l : List (List Char)),
    (∀ x ∈ tl, plainLine x) → r ≠ [] →
    scanLines (tl ++ rest) r l = scanLines rest (r ++ tl) l := by
  intro tl
  induction tl with
  | nil => intro rest r l _ _; simp
  | cons x xs ih =>
    intro rest r l hp hr
    obtain ⟨hsx, hnex, hnlx, hox, hdx⟩ := hp x (List.mem_cons_self x xs)
    rw [List.cons_append, scan_cons, hsx,
      if_neg (by simp [hox]), if_neg hr, if_neg (by simp [hdx]), if_pos hnex,
      ih rest (r ++ [x]) l (fun z hz => hp z (List.mem_cons_of_mem x hz)) (by simp)]
    simp

/-- A fully plain tail after an open head yields the whole block. -/
theorem scan_chain (tl r l : List (List Char)) (hp : ∀ x ∈ tl, plainLine x) (hr : r ≠ []) :
    scanLines tl r l = r ++ tl := by
  have h := scan_chain_mid tl [] r l hp hr
  rw [List.append_nil] at h
  rw [h, scan_nil, if_pos (by simp [hr])]

/-! ## Joined blocks and the extractor -/

/-- A piece list with a non-empty last piece joins to a non-empty text. -/
theorem joinNL_ne_nil {B : List (List Char)} {z : List Char}
    (hz : B.getLast? = some z) (hzne : z ≠ []) : joinNL B ≠ [] := by
  induction B with
  | nil => simp at hz
  | cons x ys ih =>
    cases ys with
    | nil =>
      have hxz : x = z := by simpa using hz
      rw [show joinNL [x] = x from rfl, hxz]
      exact hzne
    | cons y rest =>
      rw [show joinNL (x :: y :: rest) = x ++ '\n' :: joinNL (y :: rest) from rfl]
      simp

/-- The last character of a join is the last character of the last
(non-empty) piece. -/
theorem joinNL_getLast? : ∀ {B : List (List Char)} {z : List Char},
    B.getLast? = some z → z ≠ [] → (joinNL B).getLast? = z.getLast? := by
  intro B
  induction B with
  | nil => intro z hz _; simp at hz
  | cons x ys ih =>
    intro z hz hzne
    cases ys with
    | nil =>
      have hxz : x = z := by simpa using hz
      rw [show joinNL [x] = x from rfl, hxz]
    | cons y rest =>
      have hz' : (y :: rest).getLast? = some z := by
        rw [← List.getLast?_cons_cons]
        exact hz
      rw [show joinNL (x :: y :: rest) = x ++ '\n' :: joinNL (y :: rest) from rfl]
      rw [List.getLast?_append_of_ne_nil x (by simp)]
      have hne := joinNL_ne_nil hz' hzne
      cases hj : joinNL (y :: rest) with
      | nil => exact absurd hj hne
      | cons a b =>
        rw [List.getLast?_cons_cons, ← hj]
        exact ih hz' hzne

/-- The first character of a join is the first character of the first
(non-empty) piece. -/
theorem joinNL_head? {h : List Char} {tl : List (List Char)} (hh : h ≠ []) :
    (joinNL (h :: tl)).head? = h.head? := by
  cases tl with
  | nil => rfl
  | cons y rest =>
    rw [show joinNL (h :: y :: rest) = h ++ '\n' :: joinNL (y :: rest) from rfl]
    cases h with
    | nil => exact absurd rfl hh
    | cons a as => rfl

/-- A non-empty well-formed block ends in a non-empty stripped line. -/
theorem wfBlock_last {h : List Char} {tl : List (List Char)}
    (hwf : wfBlock (h :: tl)) :
    ∃ z, (h :: tl).getLast? = some z ∧ z ≠ [] ∧ stripChars z = z := by
  obtain ⟨hsh, hnl, hop, htl⟩ := hwf
  have hh_ne : h ≠ [] := by
    intro he
    rw [he] at hop
    exact absurd hop (by decide)
  cases htl' : tl.getLast? with
  | none =>
    have h0 : tl = [] := List.getLast?_eq_none_iff.mp htl'
    subst h0
    exact ⟨h, rfl, hh_ne, hsh⟩
  | some z =>
    have hz_mem : z ∈ tl := List.mem_of_mem_getLast? (by rw [htl']; rfl)
    obtain ⟨hzs, hzne, _, _, _⟩ := htl z hz_mem
    refine ⟨z, ?_, hzne, hzs⟩
    cases tl with
    | nil => simp at htl'
    | cons t ts =>
      rw [List.getLast?_cons_cons]
      exact htl'

/-- The join of a non-empty well-formed block is already stripped and
non-empty. -/
theorem wf_join {B : List (List Char)} (hwf : wfBlock B) (hB : B ≠ []) :
    stripChars (joinNL B) = joinNL B ∧ joinNL B ≠ [] := by
  cases B with
  | nil => exact absurd rfl hB
  | cons h tl =>
    obtain ⟨z, hz, hzne, hzs⟩ := wfBlock_last hwf
    obtain ⟨hsh, hnl, hop, htl⟩ := hwf
    have hh_ne : h ≠ [] := by
      intro he
      rw [he] at hop
      exact absurd hop (by decide)
    have hne : joinNL (h :: tl) ≠ [] := joinNL_ne_nil hz hzne
    refine ⟨?_, hne⟩
    apply strip_eq_self
    · intro a ha
      rw [joinNL_head? hh_ne] at ha
      cases hcons : h with
      | nil => exact absurd hcons hh_ne
      | cons a0 as =>
        rw [hcons] at ha
        have ha0 : a0 = a := by simpa using ha
        rw [← ha0]
        exact stripped_head hsh hcons
    · intro c hc
      rw [joinNL_getLast? hz hzne] at hc
      exact rstripped_last (stripped_rstrip hzs) hc

/-- The extracted reply is empty exactly when no line opens a block. -/
theorem extract_empty_iff (t : List Char) :
    extractReplyL t = [] ↔
      ∀ ln ∈ extractLinesL t, ¬ isBlockOpenL (stripChars ln) = true := by
  constructor
  · intro h ln hln hopen
    have hne := scan_ne_nil (extractLinesL t) [] [] (Or.inr (Or.inr ⟨ln, hln, hopen⟩))
    have hwf := scan_wf (extractLinesL t) [] [] (fun x hx => extractLines_noNL hx)
      trivial trivial
    obtain ⟨hstr, hjne⟩ := wf_join hwf hne
    apply hjne
    unfold extractReplyL at h
    rwa [hstr] at h
  · intro h
    unfold extractReplyL
    rw [scan_no_open (extractLinesL t) [] fun ln hln => by simpa using h ln hln]
    rfl

/-- Well-formed blocks are fixed points of the extractor. -/
theorem extract_of_wf {B : List (List Char)} (hwf : wfBlock B) (hB : B ≠ []) :
    extractReplyL (joinNL B) = joinNL B := by
  cases B with
  | nil => exact absurd rfl hB
  | cons h tl =>
    obtain ⟨z, hz, hzne, _⟩ := wfBlock_last hwf
    obtain ⟨hsh, hnl, hop, htl⟩ := hwf
    have hh_ne : h ≠ [] := by
      intro he
      rw [he] at hop
      exact absurd hop (by decide)
    have hlines : extractLinesL (joinNL (h :: tl)) = h :: tl := by
      unfold extractLinesL
      rw [pySplitlines_joinNL ?nl ?last]
      · conv_rhs => rw [← List.map_id (h :: tl)]
        refine List.map_congr_left ?_
        intro x hx
        rcases List.mem_cons.mp hx with he | hm
        · rw [he]
          exact stripped_rstrip hsh
        · exact stripped_rstrip (htl x hm).1
      case nl =>
        intro x hx
        rcases List.mem_cons.mp hx with he | hm
        · rw [he]
          exact hnl
        · exact (htl x hm).2.2.1
      case last =>
        rw [hz]
        simp [hzne]
    have hchain : scanLines (h :: tl) [] [] = h :: tl := by
      rw [scan_cons, hsh, if_pos hop, scan_chain tl [h] [] htl (by simp)]
      rfl
    unfold extractReplyL
    rw [hlines, hchain]
    exact (wf_join (B := h :: tl) ⟨hsh, hnl, hop, htl⟩ (by simp)).1

/-- Either the extractor returns nothing, or its result is the join of a
non-empty well-formed block (the scan's result). -/
theorem extractReplyL_cases (t : List Char) :
    extractReplyL t = [] ∨
    (wfBlock (scanLines (extractLinesL t) [] []) ∧
     scanLines (extractLinesL t) [] [] ≠ [] ∧
     extractReplyL t = joinNL (scanLines (extractLinesL t) [] [])) := by
  by_cases he : extractReplyL t = []
  · exact Or.inl he
  · right
    have hwf := scan_wf (extractLinesL t) [] [] (fun x hx => extractLines_noNL hx)
      trivial trivial
    have hne : scanLines (extractLinesL t) [] [] ≠ [] := by
      intro h0
      apply he
      unfold extractReplyL
      rw [h0]
      rfl
    obtain ⟨hstr, _⟩ := wf_join hwf hne
    exact ⟨hwf, hne, by unfold extractReplyL; rw [hstr]⟩

/-- The extractor is idempotent. -/
theorem extractReplyL_idem (t : List Char) :
    extractReplyL (extractReplyL t) = extractReplyL t := by
  rcases extractReplyL_cases t with he | ⟨hwf, hne, heq⟩
  · rw [he]
    rfl
  · rw [heq]
    exact extract_of_wf hwf hne

/-- The extracted reply is no longer than the input text. -/
theorem extractReplyL_length_le (t : List Char) :
    (extractReplyL t).length ≤ t.length := by
  unfold extractReplyL
  have key : ∀ S : List (List Char), S.Sublist (extractLinesL t) →
      (stripChars (joinNL (S.map stripChars))).length ≤ t.length := by
    intro S hS
    calc (stripChars (joinNL (S.map stripChars))).length
        ≤ (joinNL (S.map stripChars)).length := stripChars_length_le _
      _ ≤ (joinNL S).length := joinNL_map_length_le stripChars stripChars_length_le S
      _ ≤ (joinNL (extractLinesL t)).length := joinNL_sublist_length hS
      _ ≤ t.length := extractLines_join_le t
  rcases scan_shape (extractLinesL t) [] [] with h | ⟨S, hS, he⟩ | ⟨S, hS, he⟩
  · rw [h]
    exact Nat.zero_le t.length
  · rw [he, List.nil_append]
    exact key S hS
  · rw [he]
    exact key S hS

/-! ## C8: two marker-opened blocks separated by a divider -/

/-- C8: on input consisting of a marker-opened reply block, a
prompt/divider line, and a second marker-opened reply block,
`_extract_tui_reply` returns exactly the second block's lines: the
divider promotes the first block, and the second block's opener then
discards it. -/
theorem thm_C8 (b1h d b2h : String) (b1t b2t : List String)
    (wf1 : wfBlock ((b1h :: b1t).map String.data))
    (wf2 : wfBlock ((b2h :: b2t).map String.data))
    (hd1 : isDividerL (stripChars d.data) = true)
    (hd2 : isBlockOpenL (stripChars d.data) = false)
    (hd3 : '\n' ∉ d.data) (hd4 : rstripChars d.data = d.data) :
    _extract_tui_reply (strJoinNL ((b1h :: b1t) ++ [d] ++ (b2h :: b2t))) =
      strJoinNL (b2h :: b2t) := by
  have hmap : ((b1h :: b1t) ++ [d] ++ (b2h :: b2t)).map String.data =
      (b1h.data :: b1t.map String.data) ++ [d.data] ++
        (b2h.data :: b2t.map String.data) := by
    simp
  obtain ⟨hs1, hn1, ho1, ht1⟩ := wf1
  obtain ⟨hs2, hn2, ho2, ht2⟩ := wf2
  obtain ⟨z, hz, hzne, hzs⟩ := @wfBlock_last b2h.data (b2t.map String.data)
    ⟨hs2, hn2, ho2, ht2⟩
  have hsplit : extractLinesL (joinNL ((b1h.data :: b1t.map String.data) ++ [d.data] ++
      (b2h.data :: b2t.map String.data))) =
      (b1h.data :: b1t.map String.data) ++ [d.data] ++ (b2h.data :: b2t.map String.data) := by
    unfold extractLinesL
    rw [pySplitlines_joinNL ?nl ?last]
    · conv_rhs =>
        rw [← List.map_id ((b1h.data :: b1t.map String.data) ++ [d.data] ++
          (b2h.data :: b2t.map String.data))]
      refine List.map_congr_left ?_
      intro x hx
      rcases List.mem_append.mp hx with hx12 | hx3
      · rcases List.mem_append.mp hx12 with hx1 | hxd
        · rcases List.mem_cons.mp hx1 with he | hm
          · rw [he]
            exact stripped_rstrip hs1
          · exact stripped_rstrip (ht1 x hm).1
        · rw [List.mem_singleton.mp hxd]
          exact hd4
      · rcases List.mem_cons.mp hx3 with he | hm
        · rw [he]
          exact stripped_rstrip hs2
        · exact stripped_rstrip (ht2 x hm).1
    case nl =>
      intro x hx
      rcases List.mem_append.mp hx with hx12 | hx3
      · rcases List.mem_append.mp hx12 with hx1 | hxd
        · rcases List.mem_cons.mp hx1 with he | hm
          · rw [he]
            exact hn1
          · exact (ht1 x hm).2.2.1
        · rw [List.mem_singleton.mp hxd]
          exact hd3
      · rcases List.mem_cons.mp hx3 with he | hm
        · rw [he]
          exact hn2
        · exact (ht2 x hm).2.2.1
    case last =>
      rw [List.getLast?_append_of_ne_nil _ (by simp), hz]
      simp [hzne]
  have hscan : scanLines ((b1h.data :: b1t.map String.data) ++ [d.data] ++
      (b2h.data :: b2t.map String.data)) [] [] =
      b2h.data :: b2t.map String.data := by
    have hassoc : (b1h.data :: b1t.map String.data) ++ [d.data] ++
        (b2h.data :: b2t.map String.data) =
        b1h.data :: (b1t.map String.data ++
          (d.data :: b2h.data :: b2t.map String.data)) := by
      simp
    rw [hassoc, scan_cons, hs1, if_pos ho1,
      scan_chain_mid (b1t.map String.data) _ [b1h.data] [] ht1 (by simp),
      scan_cons, if_neg (by simp [hd2]), if_neg (by simp), if_pos hd1,
      scan_cons, hs2, if_pos ho2,
      scan_chain (b2t.map String.data) [b2h.data] _ ht2 (by simp)]
    rfl
  show String.mk (extractReplyL (joinNL (((b1h :: b1t) ++ [d] ++ (b2h :: b2t)).map
    String.data))) = String.mk (joinNL ((b2h :: b2t).map String.data))
  rw [hmap]
  refine congrArg String.mk ?_
  unfold extractReplyL
  rw [hsplit, hscan]
  have := (wf_join (B := b2h.data :: b2t.map String.data) ⟨hs2, hn2, ho2, ht2⟩ (by simp)).1
  rw [this]
  simp

/-- C8 witness: two concrete blocks around a `❯` divider. -/
theorem wit_C8 :
    _extract_tui_reply (strJoinNL ((("⏺ first" : String) :: ["one"]) ++ ["❯"] ++
      (("● second" : String) :: ["two"]))) = strJoinNL (("● second" : String) :: ["two"]) :=
  thm_C8 "⏺ first" "❯" "● second" ["one"] ["two"]
    (by decide) (by decide) (by decide) (by decide) (by decide) (by decide)

/-! ## Stripping a joined text, piece by piece -/

/-- Right-stripping an append. -/
theorem rstrip_append (a b : List Char) :
    rstripChars (a ++ b) =
      if rstripChars b = [] then rstripChars a else a ++ rstripChars b := by
  unfold rstripChars
  rw [List.reverse_append, List.dropWhile_append]
  by_cases hb : b.reverse.dropWhile pySpace = []
  · rw [if_pos (by simp [hb]), if_pos (by rw [hb]; rfl)]
  · rw [if_neg (by simp [hb]), if_neg (by simp [hb])]
    rw [List.reverse_append, List.reverse_reverse]

/-- Right-stripping a newline-headed text. -/
theorem rstrip_cons_nl (J : List Char) :
    rstripChars ('\n' :: J) =
      if rstripChars J = [] then [] else '\n' :: rstripChars J := by
  have h := rstrip_append ['\n'] J
  rw [show (['\n'] : List Char) ++ J = '\n' :: J from rfl] at h
  rw [h]
  by_cases hJ : rstripChars J = []
  · rw [if_pos hJ, if_pos hJ]
    rfl
  · rw [if_neg hJ, if_neg hJ]
    rfl

/-- The join of all-empty pieces right-strips to nothing. -/
theorem all_empty_join {L : List (List Char)} (h : ∀ x ∈ L, x = []) :
    rstripChars (joinNL L) = [] := by
  induction L with
  | nil => rfl
  | cons x ys ih =>
    cases ys with
    | nil =>
      rw [show joinNL [x] = x from rfl, h x (List.mem_cons_self x [])]
      rfl
    | cons y rest =>
      rw [show joinNL (x :: y :: rest) = x ++ '\n' :: joinNL (y :: rest) from rfl,
        h x (List.mem_cons_self x (y :: rest))]
      rw [show ([] : List Char) ++ '\n' :: joinNL (y :: rest) = '\n' :: joinNL (y :: rest)
        from rfl]
      rw [rstrip_cons_nl, if_pos (ih fun z hz => h z (List.mem_cons_of_mem x hz))]

/-- Unfolding `dropTrailEmpty` on a cons. -/
theorem dropTrail_cons (x : List Char) (ys : List (List Char)) :
    dropTrailEmpty (x :: ys) =
      if dropTrailEmpty ys = [] then (if x = [] then [] else [x])
      else x :: dropTrailEmpty ys := by
  unfold dropTrailEmpty
  rw [List.reverse_cons, List.dropWhile_append]
  by_cases hys : List.dropWhile List.isEmpty ys.reverse = []
  · rw [if_pos (by simp [hys]), if_pos (by rw [hys]; rfl)]
    by_cases hx : x = []
    · rw [if_pos hx, hx]
      rfl
    · rw [if_neg hx]
      rw [show List.dropWhile List.isEmpty [x] = [x] by
        rw [List.dropWhile_cons_of_neg (by simp [List.isEmpty_iff, hx])]]
      rfl
  · rw [if_neg (by simp [hys]), if_neg (by simp [List.reverse_eq_nil_iff, hys])]
    rw [List.reverse_append]
    rfl

/-- If everything trails away, every piece was empty. -/
theorem dropTrail_all_empty {ys : List (List Char)} (h : dropTrailEmpty ys = []) :
    ∀ x ∈ ys, x = [] := by
  unfold dropTrailEmpty at h
  have h2 : ys.reverse.dropWhile List.isEmpty = [] := by
    have := congrArg List.reverse h
    rwa [List.reverse_reverse] at this
  intro x hx
  exact List.isEmpty_iff.mp
    (List.dropWhile_eq_nil_iff.mp h2 x (List.mem_reverse.mpr hx))

/-- A non-empty `dropTrailEmpty` result ends in a non-empty piece. -/
theorem dropTrail_getLast {ys : List (List Char)} (hY : dropTrailEmpty ys ≠ []) :
    (dropTrailEmpty ys).getLast? ≠ some [] := by
  unfold dropTrailEmpty at hY ⊢
  rw [← List.head?_reverse, List.reverse_reverse]
  cases hd : ys.reverse.dropWhile List.isEmpty with
  | nil =>
    rw [hd] at hY
    exact absurd rfl hY
  | cons a b =>
    have ha := List.head?_dropWhile_not List.isEmpty ys.reverse
    rw [hd] at ha
    simp only [List.head?_cons] at ha
    intro hcontra
    have ha2 : a = [] := by simpa using hcontra
    rw [ha2] at ha
    simp at ha

/-- `dropTrailEmpty` yields a sublist. -/
theorem dropTrail_sublist (ys : List (List Char)) : (dropTrailEmpty ys).Sublist ys := by
  unfold dropTrailEmpty
  have h := (List.dropWhile_sublist List.isEmpty (l := ys.reverse)).reverse
  rwa [List.reverse_reverse] at h

/-- Left-stripping a join of right-stripped pieces. -/
theorem lstrip_joinNL : ∀ (L : List (List Char)), (∀ x ∈ L, rstripChars x = x) →
    lstripChars (joinNL L) = joinNL (lnormLines L) := by
  intro L
  induction L with
  | nil => intro _; rfl
  | cons x ys ih =>
    intro hr
    by_cases hx : x = []
    · subst hx
      cases ys with
      | nil => rfl
      | cons y rest =>
        rw [show joinNL ([] :: y :: rest) = '\n' :: joinNL (y :: rest) from rfl]
        rw [show lstripChars ('\n' :: joinNL (y :: rest)) =
            lstripChars (joinNL (y :: rest)) by
          simp [lstripChars, List.dropWhile_cons, pySpace]]
        rw [ih fun z hz => hr z (List.mem_cons_of_mem [] hz)]
        rw [show lnormLines ([] :: y :: rest) = lnormLines (y :: rest) by
          unfold lnormLines dropLeadEmpty
          rw [List.dropWhile_cons_of_pos (by simp)]]
    · have hxr : rstripChars x = x := hr x (List.mem_cons_self x ys)
      have hlx : lstripChars x ≠ [] := lstrip_ne_nil hxr hx
      have hlnorm : lnormLines (x :: ys) = lstripChars x :: ys := by
        unfold lnormLines dropLeadEmpty
        rw [List.dropWhile_cons_of_neg (by simp [List.isEmpty_iff, hx])]
      rw [hlnorm]
      cases ys with
      | nil => rfl
      | cons y rest =>
        rw [show joinNL (x :: y :: rest) = x ++ '\n' :: joinNL (y :: rest) from rfl,
          show joinNL (lstripChars x :: y :: rest) =
            lstripChars x ++ '\n' :: joinNL (y :: rest) from rfl]
        unfold lstripChars
        rw [List.dropWhile_append, if_neg (by simp [show x.dropWhile pySpace = lstripChars x from rfl, hlx])]

/-- Right-stripping a join of right-stripped pieces drops the trailing
empty pieces. -/
theorem rstrip_joinNL : ∀ (L : List (List Char)), (∀ x ∈ L, rstripChars x = x) →
    rstripChars (joinNL L) = joinNL (dropTrailEmpty L) := by
  intro L
  induction L with
  | nil => intro _; rfl
  | cons x ys ih =>
    intro hr
    have hx : rstripChars x = x := hr x (List.mem_cons_self x ys)
    have hr' : ∀ z ∈ ys, rstripChars z = z := fun z hz => hr z (List.mem_cons_of_mem x hz)
    rw [dropTrail_cons]
    by_cases hys : dropTrailEmpty ys = []
    · rw [if_pos hys]
      have hall := dropTrail_all_empty hys
      cases ys with
      | nil =>
        by_cases hxe : x = []
        · rw [if_pos hxe, show joinNL [x] = x from rfl, hx, hxe]
          rfl
        · rw [if_neg hxe, show joinNL [x] = x from rfl, hx]
      | cons y rest =>
        have hJ0 : rstripChars (joinNL (y :: rest)) = [] := all_empty_join hall
        have hJ : rstripChars ('\n' :: joinNL (y :: rest)) = [] := by
          rw [rstrip_cons_nl, if_pos hJ0]
        rw [show joinNL (x :: y :: rest) = x ++ '\n' :: joinNL (y :: rest) from rfl,
          rstrip_append, if_pos hJ, hx]
        by_cases hxe : x = []
        · rw [if_pos hxe, hxe]
          rfl
        · rw [if_neg hxe]
          rfl
    · rw [if_neg hys]
      cases ys with
      | nil => exact absurd rfl hys
      | cons y rest =>
        have hJeq := ih hr'
        have hJne : rstripChars (joinNL (y :: rest)) ≠ [] := by
          rw [hJeq]
          cases hlast : (dropTrailEmpty (y :: rest)).getLast? with
          | none =>
            exact absurd (List.getLast?_eq_none_iff.mp hlast) hys
          | some z =>
            have hzne : z ≠ [] := by
              intro h0
              exact dropTrail_getLast hys (h0 ▸ hlast)
            exact joinNL_ne_nil hlast hzne
        have hJcons : rstripChars ('\n' :: joinNL (y :: rest)) =
            '\n' :: rstripChars (joinNL (y :: rest)) := by
          rw [rstrip_cons_nl, if_neg hJne]
        rw [show joinNL (x :: y :: rest) = x ++ '\n' :: joinNL (y :: rest) from rfl,
          rstrip_append, if_neg (by rw [hJcons]; simp), hJcons, hJeq]
        cases hdt : dropTrailEmpty (y :: rest) with
        | nil => exact absurd hdt hys
        | cons z zs =>
          rw [show joinNL (x :: z :: zs) = x ++ '\n' :: joinNL (z :: zs) from rfl]

/-- Stripping a join of right-stripped pieces normalizes the piece list. -/
theorem strip_joinNL (L : List (List Char)) (hr : ∀ x ∈ L, rstripChars x = x) :
    stripChars (joinNL L) = joinNL (normLines L) := by
  unfold stripChars
  rw [lstrip_joinNL L hr]
  cases hdl : dropLeadEmpty L with
  | nil =>
    rw [show lnormLines L = [] by unfold lnormLines; rw [hdl]]
    rw [show normLines L = [] by unfold normLines; rw [hdl]; rfl]
    rfl
  | cons h tl =>
    have hsub : (dropLeadEmpty L).Sublist L := List.dropWhile_sublist _
    have hh_mem : h ∈ L := hsub.subset (hdl ▸ List.mem_cons_self h tl)
    have htl_mem : ∀ x ∈ tl, x ∈ L := fun x hx =>
      hsub.subset (hdl ▸ List.mem_cons_of_mem h hx)
    have hh_r : rstripChars h = h := hr h hh_mem
    have hh_ne : h ≠ [] := by
      have hhd := List.head?_dropWhile_not List.isEmpty L
      rw [show L.dropWhile List.isEmpty = dropLeadEmpty L from rfl, hdl] at hhd
      simp only [List.head?_cons] at hhd
      intro h0
      rw [h0] at hhd
      simp at hhd
    have hstrip_l : stripChars h = lstripChars h := strip_of_rstripped hh_r
    have hlh_r : rstripChars (lstripChars h) = lstripChars h := by
      have h2 := strip_of_rstripped hh_r
      unfold stripChars at h2
      exact h2
    have hlsne : lstripChars h ≠ [] := lstrip_ne_nil hh_r hh_ne
    rw [show lnormLines L = lstripChars h :: tl by unfold lnormLines; rw [hdl]]
    rw [rstrip_joinNL (lstripChars h :: tl) ?hr2]
    case hr2 =>
      intro x hx
      rcases List.mem_cons.mp hx with he | hm
      · rw [he]
        exact hlh_r
      · exact hr x (htl_mem x hm)
    rw [show normLines L = match dropTrailEmpty (h :: tl) with
        | [] => []
        | h' :: tl' => stripChars h' :: tl' by unfold normLines; rw [hdl]]
    rw [dropTrail_cons, dropTrail_cons]
    by_cases htr : dropTrailEmpty tl = []
    · rw [if_pos htr, if_pos htr, if_neg hlsne, if_neg hh_ne]
      rw [show (match ([h] : List (List Char)) with
          | [] => ([] : List (List Char))
          | h' :: tl' => stripChars h' :: tl') = [stripChars h] from rfl]
      rw [hstrip_l]
    · rw [if_neg htr, if_neg htr]
      rw [show (match (h :: dropTrailEmpty tl : List (List Char)) with
          | [] => ([] : List (List Char))
          | h' :: tl' => stripChars h' :: tl') = stripChars h :: dropTrailEmpty tl from rfl]
      rw [hstrip_l]

/-! ## Normalized piece lists -/

/-- Every piece of `normLines L` is a piece of `L` or the strip of one. -/
theorem normLines_mem {L : List (List Char)} {x : List Char} (hx : x ∈ normLines L) :
    x ∈ L ∨ ∃ y ∈ L, x = stripChars y := by
  unfold normLines at hx
  have hsub : (dropTrailEmpty (dropLeadEmpty L)).Sublist L :=
    (dropTrail_sublist _).trans (List.dropWhile_sublist _)
  cases hdt : dropTrailEmpty (dropLeadEmpty L) with
  | nil =>
    rw [hdt] at hx
    exact absurd hx (List.not_mem_nil x)
  | cons h tl =>
    rw [hdt] at hx
    rcases List.mem_cons.mp hx with he | hm
    · exact Or.inr ⟨h, hsub.subset (hdt ▸ List.mem_cons_self h tl), he⟩
    · exact Or.inl (hsub.subset (hdt ▸ List.mem_cons_of_mem h hm))

/-- `normLines` does not lengthen the piece list. -/
theorem normLines_length_le (L : List (List Char)) : (normLines L).length ≤ L.length := by
  unfold normLines
  have hsub : (dropTrailEmpty (dropLeadEmpty L)).Sublist L :=
    (dropTrail_sublist _).trans (List.dropWhile_sublist _)
  have hlen := hsub.length_le
  cases hdt : dropTrailEmpty (dropLeadEmpty L) with
  | nil => simp
  | cons h tl =>
    rw [hdt] at hlen
    simpa using hlen

/-- For right-stripped pieces the normalized list never ends empty. -/
theorem normLines_getLast {L : List (List Char)} (hr : ∀ x ∈ L, rstripChars x = x) :
    (normLines L).getLast? ≠ some [] := by
  unfold normLines
  cases hdt : dropTrailEmpty (dropLeadEmpty L) with
  | nil => simp
  | cons h tl =>
    have hne : dropTrailEmpty (dropLeadEmpty L) ≠ [] := by rw [hdt]; simp
    have hgl := dropTrail_getLast hne
    rw [hdt] at hgl
    cases tl with
    | nil =>
      have hh_ne : h ≠ [] := by
        intro h0
        apply hgl
        rw [h0]
        rfl
      have hh_mem : h ∈ L :=
        ((dropTrail_sublist _).trans (List.dropWhile_sublist _)).subset
          (hdt ▸ List.mem_cons_self h [])
      have hh_r := hr h hh_mem
      have hsne : stripChars h ≠ [] := by
        rw [strip_of_rstripped hh_r]
        exact lstrip_ne_nil hh_r hh_ne
      simpa using hsne
    | cons t ts =>
      rw [List.getLast?_cons_cons]
      rw [List.getLast?_cons_cons] at hgl
      exact hgl

/-! ## `_limit_tui_output`: evaluation lemmas and idempotence -/

/-- Under the line cap, the fallback tail slice keeps every line. -/
theorem limit_tail_all {maxLines : Int} {lines : List (List Char)}
    (h : 0 < maxLines → (lines.length : Int) ≤ maxLines) :
    (if maxLines > 0 then lines.drop (lines.length - maxLines.toNat) else lines) = lines := by
  by_cases hp : maxLines > 0
  · rw [if_pos hp]
    have h0 : lines.length - maxLines.toNat = 0 := by
      have h2 := h hp
      omega
    rw [h0, List.drop_zero]
  · rw [if_neg hp]

/-- When the extractor finds a reply within the character cap, the limit
returns it unchanged. -/
theorem limitL_of_extract_ne {maxLines maxChars : Int} {t : List Char}
    (he : extractReplyL t ≠ [])
    (hc : 0 < maxChars → ((extractReplyL t).length : Int) ≤ maxChars) :
    limitL maxLines maxChars t = extractReplyL t := by
  have hes : stripChars (extractReplyL t) = extractReplyL t := by
    unfold extractReplyL
    exact stripChars_idem _
  have hnt : ¬ (maxChars > 0 ∧ ((extractReplyL t).length : Int) > maxChars) := by
    intro hcontra
    have h2 := hc hcontra.1
    have h3 := hcontra.2
    omega
  unfold limitL
  dsimp only
  rw [if_neg he, if_neg hnt, hes, if_neg he]

/-- When the extractor finds nothing and the caps cover the text, the
limit is the stripped join of all (rstripped) lines — or the sentinel. -/
theorem limitL_of_extract_empty {maxLines maxChars : Int} {t : List Char}
    (he : extractReplyL t = [])
    (hl : 0 < maxLines → ((extractLinesL t).length : Int) ≤ maxLines)
    (hc : 0 < maxChars → ((stripChars (joinNL (extractLinesL t))).length : Int) ≤ maxChars) :
    limitL maxLines maxChars t =
      (if stripChars (joinNL (extractLinesL t)) = [] then "(no output)".data
       else stripChars (joinNL (extractLinesL t))) := by
  have hnt : ¬ (maxChars > 0 ∧
      ((stripChars (joinNL (extractLinesL t))).length : Int) > maxChars) := by
    intro hcontra
    have h2 := hc hcontra.1
    have h3 := hcontra.2
    omega
  unfold limitL
  dsimp only
  rw [if_pos he, limit_tail_all hl, if_neg hnt, stripChars_idem]

/-- The `(no output)` sentinel is a fixed point of the limit under the
amended caps. -/
theorem limitL_sentinel {maxLines maxChars : Int}
    (hsent : 0 < maxChars → 11 ≤ maxChars) :
    limitL maxLines maxChars "(no output)".data = "(no output)".data := by
  have he : extractReplyL "(no output)".data = [] := by decide
  have hlines : extractLinesL "(no output)".data = ["(no output)".data] := by decide
  have h1 := @limitL_of_extract_empty maxLines maxChars _ he
    (by rw [hlines]; intro hp; simp; omega)
    (by
      rw [hlines]
      intro hp
      rw [show stripChars (joinNL ["(no output)".data]) = "(no output)".data by decide]
      have := hsent hp
      rw [show ("(no output)".data.length : Int) = 11 by decide]
      omega)
  rw [h1, hlines]
  rw [show stripChars (joinNL ["(no output)".data]) = "(no output)".data by decide]
  rw [if_neg (by decide)]

/-- `_limit_tui_output` is idempotent on character lists within the caps,
provided the character cap (when enabled) admits the 11-character
sentinel. -/
theorem limitL_idem (maxLines maxChars : Int) (t : List Char)
    (hl : 0 < maxLines → ((pySplitlinesL t).length : Int) ≤ maxLines)
    (hc : 0 < maxChars → (t.length : Int) ≤ maxChars)
    (hsent : 0 < maxChars → 11 ≤ maxChars) :
    limitL maxLines maxChars (limitL maxLines maxChars t) = limitL maxLines maxChars t := by
  have hlines_len : (extractLinesL t).length = (pySplitlinesL t).length := by
    unfold extractLinesL
    exact List.length_map _ _
  by_cases he : extractReplyL t = []
  · -- fallback branch
    have hLr : ∀ x ∈ extractLinesL t, rstripChars x = x := fun x hx =>
      extractLines_rstripped hx
    set M := normLines (extractLinesL t) with hM
    have hrM : stripChars (joinNL (extractLinesL t)) = joinNL M :=
      strip_joinNL (extractLinesL t) hLr
    have hr_le : (joinNL M).length ≤ t.length := by
      rw [← hrM]
      exact le_trans (stripChars_length_le _) (extractLines_join_le t)
    have hlim := @limitL_of_extract_empty maxLines maxChars _ he
      (by rw [hlines_len]; exact hl)
      (by
        intro hp
        have := hc hp
        have h2 := le_trans (stripChars_length_le (joinNL (extractLinesL t)))
          (extractLines_join_le t)
        omega)
    rw [hlim, hrM]
    by_cases hMe : joinNL M = []
    · rw [if_pos hMe]
      exact limitL_sentinel hsent
    · rw [if_neg hMe]
      -- second application on r := joinNL M
      have hMnoNL : ∀ x ∈ M, '\n' ∉ x := by
        intro x hx
        rcases normLines_mem hx with hmem | ⟨y, hy, hxy⟩
        · exact extractLines_noNL hmem
        · intro hin
          exact extractLines_noNL hy (mem_stripChars (hxy ▸ hin))
      have hMr : ∀ x ∈ M, rstripChars x = x := by
        intro x hx
        rcases normLines_mem hx with hmem | ⟨y, hy, hxy⟩
        · exact hLr x hmem
        · rw [hxy]
          exact stripped_rstrip (stripChars_idem y)
      have hMlast : M.getLast? ≠ some [] := normLines_getLast hLr
      have hlinesM : extractLinesL (joinNL M) = M := by
        unfold extractLinesL
        rw [pySplitlines_joinNL hMnoNL hMlast]
        conv_rhs => rw [← List.map_id M]
        refine List.map_congr_left ?_
        intro x hx
        exact hMr x hx
      have hnoopen : ∀ ln ∈ extractLinesL t, ¬ isBlockOpenL (stripChars ln) = true :=
        (extract_empty_iff t).mp he
      have heM : extractReplyL (joinNL M) = [] := by
        rw [extract_empty_iff, hlinesM]
        intro ln hln
        rcases normLines_mem hln with hmem | ⟨y, hy, hxy⟩
        · exact hnoopen ln hmem
        · rw [hxy, stripChars_idem]
          exact hnoopen y hy
      have hlim2 := @limitL_of_extract_empty maxLines maxChars _ heM
        (by
          rw [hlinesM]
          intro hp
          have h1 := hl hp
          have h2 := normLines_length_le (extractLinesL t)
          rw [← hM] at h2
          rw [hlines_len] at h2
          omega)
        (by
          rw [hlinesM]
          intro hp
          have h1 := hc hp
          have h2 := stripChars_length_le (joinNL M)
          omega)
      rw [hlim2, hlinesM]
      have hstripM : stripChars (joinNL M) = joinNL M := by
        rw [← hrM]
        exact stripChars_idem _
      rw [hstripM, if_neg hMe]
  · -- extractor branch
    have h_e_le : (extractReplyL t).length ≤ t.length := extractReplyL_length_le t
    have hlim := @limitL_of_extract_ne maxLines maxChars _ he
      (by
        intro hp
        have := hc hp
        omega)
    rw [hlim]
    have he2 : extractReplyL (extractReplyL t) = extractReplyL t := extractReplyL_idem t
    have hlim2 := @limitL_of_extract_ne maxLines maxChars _
      (by rw [he2]; exact he)
      (by
        rw [he2]
        intro hp
        have := hc hp
        omega)
    rw [hlim2, he2]

/-! ## C10: idempotence of `_limit_tui_output` within the caps -/

/-- C10 counterexample: with caps `maxLines = 40, maxChars = 5`, the text
`" "` is within both caps (1 line, 1 character), yet the limit is NOT
idempotent on it: the first application yields the 11-character
`(no output)` sentinel — emitted without re-checking the cap — and the
second application truncates that sentinel to its last five characters. -/
theorem cex_C10 :
    ((pySplitlinesL (" " : String).data).length : Int) ≤ 40 ∧
    (((" " : String).data.length : Int)) ≤ 5 ∧
    _limit_tui_output 40 5 " " = "(no output)" ∧
    _limit_tui_output 40 5 (_limit_tui_output 40 5 " ") = "tput)" ∧
    _limit_tui_output 40 5 (_limit_tui_output 40 5 " ") ≠ _limit_tui_output 40 5 " " := by
  refine ⟨by decide, by decide, by decide, by decide, by decide⟩

/-- C10 amended: `_limit_tui_output` is idempotent on text whose line
count and character count are within the configured `maxLines` and
`maxChars`, PROVIDED the character cap is disabled (`≤ 0`) or at least
the length (11) of the `(no output)` sentinel — the sentinel is emitted
without re-checking the cap, so a smaller positive cap breaks
idempotence (see the counterexample). -/
theorem thm_C10 : ∀ (maxLines maxChars : Int) (t : String),
    (0 < maxLines → ((pySplitlinesL t.data).length : Int) ≤ maxLines) →
    (0 < maxChars → ((t.data.length : Int)) ≤ maxChars) →
    (0 < maxChars → 11 ≤ maxChars) →
    _limit_tui_output maxLines maxChars (_limit_tui_output maxLines maxChars t) =
      _limit_tui_output maxLines maxChars t := by
  intro ml mc t hl hc hsent
  show String.mk (limitL ml mc (limitL ml mc t.data)) = String.mk (limitL ml mc t.data)
  exact congrArg String.mk (limitL_idem ml mc t.data hl hc hsent)

/-- C10 witness: the default caps (40 lines, 4000 characters) on a small
text. -/
theorem wit_C10 :
    _limit_tui_output 40 4000 (_limit_tui_output 40 4000 "⏺ hi\nthere") =
      _limit_tui_output 40 4000 "⏺ hi\nthere" :=
  thm_C10 40 4000 "⏺ hi\nthere" (by decide) (by decide) (by decide)

end Clawbot
